import Mathlib

/-!
# Verification of the WASM save-manager (`src/save-manager.js`)

A shallow embedding of the save manager: JS strings are `List Char`
(UTF-16 code points; every character the code manipulates is a scalar
value), byte sequences are `List Nat` with entries `< 256`, and the
callback-based storage API is rendered as state-passing functions
returning explicit outcome values.

The host builtins the code calls (`btoa`/`atob`, `JSON.stringify`/
`JSON.parse`) are embedded following their standard platform semantics
on the fragment the code exercises.  The Emscripten virtual filesystem
is an external collaborator of the repository (not part of its source);
it is modelled from the spec's collaborator contract (§6) as a tree of
directories and files.
-/

namespace SaveManager

/-- JS strings as lists of characters. -/
abbrev JsStr := List Char

/-! ## Base64 (`btoa` / `atob` host builtins)

`serialize`/`deserialize` in `src/save-manager.js` frame the JSON text
with `btoa`/`atob`.  Modelled from the WHATWG specification of these
builtins: `btoa` fails on any character above U+00FF and otherwise
base64-encodes the Latin-1 bytes; `atob` implements forgiving-base64
(strip ASCII whitespace, strip up to two trailing `=` when the length
is a multiple of four, reject a remainder of one, reject characters
outside the alphabet). -/

def b64Alphabet : List Char :=
  "ABCDEFGHIJKLMNOPQRSTUVWXYZabcdefghijklmnopqrstuvwxyz0123456789+/".data

/-- The character for a six-bit group. -/
def b64char (n : Nat) : Char := b64Alphabet.getD n 'A'

def b64indexAux : List Char → Char → Option Nat
  | [], _ => none
  | a :: rest, c => if a = c then some 0 else (b64indexAux rest c).map (· + 1)

/-- Position of a character in the base64 alphabet. -/
def b64index (c : Char) : Option Nat := b64indexAux b64Alphabet c

/-- The non-padding output characters of base64 encoding. -/
def b64core : List Nat → List Char
  | [] => []
  | [b1] => [b64char (b1 / 4), b64char (b1 % 4 * 16)]
  | [b1, b2] => [b64char (b1 / 4), b64char (b1 % 4 * 16 + b2 / 16), b64char (b2 % 16 * 4)]
  | b1 :: b2 :: b3 :: rest =>
      b64char (b1 / 4) :: b64char (b1 % 4 * 16 + b2 / 16) ::
      b64char (b2 % 16 * 4 + b3 / 64) :: b64char (b3 % 64) :: b64core rest

/-- The `=` padding appended by base64 encoding. -/
def b64padding : List Nat → List Char
  | [] => []
  | [_] => ['=', '=']
  | [_, _] => ['=']
  | _ :: _ :: _ :: rest => b64padding rest

/-- Latin-1 check: the byte values of a JS string, or `none` if some
character is above U+00FF. -/
def strToBytes : JsStr → Option (List Nat)
  | [] => some []
  | c :: rest => if c.toNat ≤ 255 then (strToBytes rest).map (c.toNat :: ·) else none

/-- `btoa`: `none` models the `InvalidCharacterError` thrown on
characters above U+00FF. -/
def btoa (s : JsStr) : Option JsStr :=
  (strToBytes s).map (fun bs => b64core bs ++ b64padding bs)

/-- ASCII whitespace stripped by forgiving-base64. -/
def isB64Ws (c : Char) : Bool :=
  c = ' ' || c = '\t' || c = '\n' || c = '\r' || c = '\x0c'

/-- Remove up to two trailing `=` when the length is a multiple of four. -/
def stripTrailingEq (s : JsStr) : JsStr :=
  if s.length % 4 = 0 then
    match s.reverse with
    | '=' :: '=' :: rest => rest.reverse
    | '=' :: rest => rest.reverse
    | _ => s
  else s

/-- Reassemble bytes from six-bit groups (excess bits of a trailing
group of two or three characters are discarded, as forgiving-base64
does). -/
def b64decodeCore : List Nat → Option (List Nat)
  | [] => some []
  | [_] => none
  | [s1, s2] => some [s1 * 4 + s2 / 16]
  | [s1, s2, s3] => some [s1 * 4 + s2 / 16, s2 % 16 * 16 + s3 / 4]
  | s1 :: s2 :: s3 :: s4 :: rest =>
      (b64decodeCore rest).map
        (fun bs => (s1 * 4 + s2 / 16) :: (s2 % 16 * 16 + s3 / 4) :: (s3 % 4 * 64 + s4) :: bs)

/-- Translate every character to its alphabet position, failing on a
character outside the alphabet (this also rejects interior `=`). -/
def mapB64index : JsStr → Option (List Nat)
  | [] => some []
  | c :: rest =>
      match b64index c with
      | none => none
      | some v => (mapB64index rest).map (v :: ·)

/-- `atob` (forgiving-base64): `none` models the thrown
`InvalidCharacterError`. -/
def atob (s : JsStr) : Option JsStr :=
  let s1 := s.filter (fun c => !isB64Ws c)
  let s2 := stripTrailingEq s1
  if s2.length % 4 = 1 then none
  else
    match mapB64index s2 with
    | none => none
    | some sx => (b64decodeCore sx).map (fun bs => bs.map Char.ofNat)

/-! ### Base64 round trip -/

theorem b64Alphabet_ok : ∀ c ∈ b64Alphabet, isB64Ws c = false ∧ c ≠ '=' := by decide

theorem b64char_spec (n : Nat) : isB64Ws (b64char n) = false ∧ b64char n ≠ '=' := by
  unfold b64char List.getD
  rcases h : b64Alphabet.get? n with _ | c
  · decide
  · simp only [Option.getD_some]
    exact b64Alphabet_ok c (List.get?_mem h)

theorem b64index_b64char : ∀ n, n < 64 → b64index (b64char n) = some n := by decide

theorem b64padding_shape (bs : List Nat) :
    b64padding bs = [] ∨ b64padding bs = ['='] ∨ b64padding bs = ['=', '='] := by
  induction bs using b64padding.induct <;> simp_all [b64padding]

theorem b64core_last (bs : List Nat) :
    b64core bs = [] ∨ ∃ l c, b64core bs = l ++ [c] ∧ c ≠ '=' := by
  induction bs using b64core.induct with
  | case1 => exact Or.inl rfl
  | case2 b1 =>
      exact Or.inr ⟨[b64char (b1 / 4)], b64char (b1 % 4 * 16), rfl, (b64char_spec _).2⟩
  | case3 b1 b2 =>
      exact Or.inr ⟨[b64char (b1 / 4), b64char (b1 % 4 * 16 + b2 / 16)],
        b64char (b2 % 16 * 4), rfl, (b64char_spec _).2⟩
  | case4 b1 b2 b3 rest ih =>
      rcases ih with h | ⟨l, c, hl, hc⟩
      · refine Or.inr ⟨[b64char (b1 / 4), b64char (b1 % 4 * 16 + b2 / 16),
          b64char (b2 % 16 * 4 + b3 / 64)], b64char (b3 % 64), ?_, (b64char_spec _).2⟩
        simp [b64core, h]
      · refine Or.inr ⟨b64char (b1 / 4) :: b64char (b1 % 4 * 16 + b2 / 16) ::
          b64char (b2 % 16 * 4 + b3 / 64) :: b64char (b3 % 64) :: l, c, ?_, hc⟩
        simp [b64core, hl]

theorem b64core_mem (bs : List Nat) :
    ∀ c ∈ b64core bs, ∃ n, c = b64char n := by
  induction bs using b64core.induct with
  | case1 => simp [b64core]
  | case2 b1 =>
      intro c hc
      simp only [b64core, List.mem_cons, List.not_mem_nil, or_false] at hc
      rcases hc with h | h <;> exact ⟨_, h⟩
  | case3 b1 b2 =>
      intro c hc
      simp only [b64core, List.mem_cons, List.not_mem_nil, or_false] at hc
      rcases hc with h | h | h <;> exact ⟨_, h⟩
  | case4 b1 b2 b3 rest ih =>
      intro c hc
      simp only [b64core, List.mem_cons] at hc
      rcases hc with h | h | h | h | h
      · exact ⟨_, h⟩
      · exact ⟨_, h⟩
      · exact ⟨_, h⟩
      · exact ⟨_, h⟩
      · exact ih c h

theorem b64_length_mod (bs : List Nat) :
    (b64core bs ++ b64padding bs).length % 4 = 0 := by
  induction bs using b64core.induct <;>
    simp_all [b64core, b64padding, List.length_append] <;> omega

theorem b64core_length_mod (bs : List Nat) :
    (b64core bs).length % 4 ≠ 1 := by
  induction bs using b64core.induct <;> simp_all [b64core] <;> omega

theorem stripTrailingEq_spec (u p : List Char)
    (hu : u = [] ∨ ∃ l c, u = l ++ [c] ∧ c ≠ '=')
    (hp : p = [] ∨ p = ['='] ∨ p = ['=', '='])
    (hlen : (u ++ p).length % 4 = 0) :
    stripTrailingEq (u ++ p) = u := by
  unfold stripTrailingEq
  rw [if_pos hlen]
  rcases hu with rfl | ⟨l, c, rfl, hc⟩ <;> rcases hp with rfl | rfl | rfl
  · rfl
  · rfl
  · rfl
  · have hrev : (l ++ [c] ++ ([] : List Char)).reverse = c :: l.reverse := by simp
    rw [hrev]
    split
    · rename_i rest heq
      injection heq with h1 _
      exact absurd h1 hc
    · rename_i rest heq
      injection heq with h1 _
      exact absurd h1 hc
    · simp
  · have hrev : (l ++ [c] ++ ['=']).reverse = '=' :: c :: l.reverse := by simp
    rw [hrev]
    split
    · rename_i rest heq
      injection heq with _ h2
      injection h2 with h3 _
      exact absurd h3 hc
    · rename_i rest heq
      injection heq with _ h2
      rw [← h2]; simp
    · rename_i h1 h2
      exact ((h2 (c :: l.reverse) rfl).elim : _)
  · have hrev : (l ++ [c] ++ ['=', '=']).reverse = '=' :: '=' :: c :: l.reverse := by
      simp
    rw [hrev]
    split
    · rename_i rest heq
      injection heq with _ h2
      injection h2 with _ h3
      rw [← h3]; simp
    · rename_i x rest h1 heq
      injection heq with _ h2
      exact ((h1 (c :: l.reverse) h2.symm).elim : _)
    · rename_i x h1 h2
      exact ((h1 (c :: l.reverse) rfl).elim : _)

theorem strToBytes_bound {s : JsStr} {bs : List Nat} (h : strToBytes s = some bs) :
    ∀ b ∈ bs, b ≤ 255 := by
  induction s generalizing bs with
  | nil =>
      simp only [strToBytes, Option.some.injEq] at h
      subst h; simp
  | cons c rest ih =>
      simp only [strToBytes] at h
      split at h
      · rcases Option.map_eq_some'.1 h with ⟨bs', h1, rfl⟩
        intro b hb
        rcases List.mem_cons.1 hb with rfl | hb'
        · assumption
        · exact ih h1 b hb'
      · exact absurd h (by simp)

theorem strToBytes_map {s : JsStr} {bs : List Nat} (h : strToBytes s = some bs) :
    bs.map Char.ofNat = s := by
  induction s generalizing bs with
  | nil =>
      simp only [strToBytes, Option.some.injEq] at h
      subst h; rfl
  | cons c rest ih =>
      simp only [strToBytes] at h
      split at h
      · rcases Option.map_eq_some'.1 h with ⟨bs', h1, rfl⟩
        simp [ih h1, Char.ofNat_toNat]
      · exact absurd h (by simp)

theorem b64core_decode (bs : List Nat) (hb : ∀ b ∈ bs, b ≤ 255) :
    ∃ sx, mapB64index (b64core bs) = some sx ∧ b64decodeCore sx = some bs := by
  induction bs using b64core.induct with
  | case1 => exact ⟨[], rfl, rfl⟩
  | case2 b1 =>
      have h1 : b1 ≤ 255 := hb b1 (by simp)
      have e1 : b64index (b64char (b1 / 4)) = some (b1 / 4) :=
        b64index_b64char _ (by omega)
      have e2 : b64index (b64char (b1 % 4 * 16)) = some (b1 % 4 * 16) :=
        b64index_b64char _ (by omega)
      refine ⟨[b1 / 4, b1 % 4 * 16], ?_, ?_⟩
      · simp [b64core, mapB64index, e1, e2]
      · simp only [b64decodeCore, Option.some.injEq, List.cons.injEq, and_true]
        omega
  | case3 b1 b2 =>
      have h1 : b1 ≤ 255 := hb b1 (by simp)
      have h2 : b2 ≤ 255 := hb b2 (by simp)
      have e1 : b64index (b64char (b1 / 4)) = some (b1 / 4) :=
        b64index_b64char _ (by omega)
      have e2 : b64index (b64char (b1 % 4 * 16 + b2 / 16)) = some (b1 % 4 * 16 + b2 / 16) :=
        b64index_b64char _ (by omega)
      have e3 : b64index (b64char (b2 % 16 * 4)) = some (b2 % 16 * 4) :=
        b64index_b64char _ (by omega)
      refine ⟨[b1 / 4, b1 % 4 * 16 + b2 / 16, b2 % 16 * 4], ?_, ?_⟩
      · simp [b64core, mapB64index, e1, e2, e3]
      · simp only [b64decodeCore, Option.some.injEq, List.cons.injEq, and_true]
        constructor <;> omega
  | case4 b1 b2 b3 rest ih =>
      have h1 : b1 ≤ 255 := hb b1 (by simp)
      have h2 : b2 ≤ 255 := hb b2 (by simp)
      have h3 : b3 ≤ 255 := hb b3 (by simp)
      have e1 : b64index (b64char (b1 / 4)) = some (b1 / 4) :=
        b64index_b64char _ (by omega)
      have e2 : b64index (b64char (b1 % 4 * 16 + b2 / 16)) = some (b1 % 4 * 16 + b2 / 16) :=
        b64index_b64char _ (by omega)
      have e3 : b64index (b64char (b2 % 16 * 4 + b3 / 64)) = some (b2 % 16 * 4 + b3 / 64) :=
        b64index_b64char _ (by omega)
      have e4 : b64index (b64char (b3 % 64)) = some (b3 % 64) :=
        b64index_b64char _ (by omega)
      rcases ih (fun b hbm => hb b (by simp [hbm])) with ⟨sx, hmap, hdec⟩
      refine ⟨b1 / 4 :: (b1 % 4 * 16 + b2 / 16) :: (b2 % 16 * 4 + b3 / 64) ::
        (b3 % 64) :: sx, ?_, ?_⟩
      · simp [b64core, mapB64index, e1, e2, e3, e4, hmap]
      · simp only [b64decodeCore, hdec, Option.map_some', Option.some.injEq,
          List.cons.injEq]
        refine ⟨by omega, by omega, by omega, trivial⟩

/-- `atob` inverts `btoa` on every Latin-1 string. -/
theorem atob_btoa {s : JsStr} {e : JsStr} (h : btoa s = some e) : atob e = some s := by
  rcases Option.map_eq_some'.1 h with ⟨bs, hbs, rfl⟩
  have hb := strToBytes_bound hbs
  unfold atob
  have hf : (b64core bs ++ b64padding bs).filter (fun c => !isB64Ws c)
      = b64core bs ++ b64padding bs := by
    rw [List.filter_eq_self]
    intro c hc
    rcases List.mem_append.1 hc with h1 | h2
    · rcases b64core_mem bs c h1 with ⟨n, rfl⟩
      simp [(b64char_spec n).1]
    · rcases b64padding_shape bs with hp | hp | hp <;> rw [hp] at h2 <;> simp_all <;>
        subst h2 <;> decide
  simp only [hf]
  rw [stripTrailingEq_spec _ _ (b64core_last bs) (b64padding_shape bs) (b64_length_mod bs)]
  rw [if_neg (b64core_length_mod bs)]
  rcases b64core_decode bs hb with ⟨sx, hmap, hdec⟩
  rw [hmap]
  simp only [hdec, Option.map_some', Option.some.injEq]
  exact strToBytes_map hbs

/-! ## JSON (`JSON.stringify` / `JSON.parse` host builtins)

`serialize`/`deserialize` use `JSON.stringify`/`JSON.parse` on a plain
object mapping paths to arrays of byte numbers.  The embedding models
the JSON value universe with integer numbers (the only numbers the
codec produces are byte values 0–255); non-integer numeric syntax is
outside the modelled fragment.  Member lists record JS object key
order (insertion order, later duplicate keys overwrite in place). -/

inductive Json where
  | null
  | bool (b : Bool)
  | num (n : Int)
  | str (s : JsStr)
  | arr (xs : List Json)
  | obj (members : List (JsStr × Json))

/-- Hexadecimal/decimal digit characters (lowercase, as emitted by
`JSON.stringify` escapes). -/
def hexDigitChar : Nat → Char
  | 0 => '0' | 1 => '1' | 2 => '2' | 3 => '3' | 4 => '4' | 5 => '5' | 6 => '6'
  | 7 => '7' | 8 => '8' | 9 => '9' | 10 => 'a' | 11 => 'b' | 12 => 'c' | 13 => 'd'
  | 14 => 'e' | 15 => 'f' | _ => '0'

/-- The escape sequence `JSON.stringify` emits for one character of a
string. -/
def escapeChar (c : Char) : List Char :=
  if c = '"' then ['\\', '"']
  else if c = '\\' then ['\\', '\\']
  else if c = '\x08' then ['\\', 'b']
  else if c = '\t' then ['\\', 't']
  else if c = '\n' then ['\\', 'n']
  else if c = '\x0c' then ['\\', 'f']
  else if c = '\r' then ['\\', 'r']
  else if c.toNat < 32 then
    ['\\', 'u', '0', '0', hexDigitChar (c.toNat / 16), hexDigitChar (c.toNat % 16)]
  else [c]

/-- A JSON string literal: quotes around the escaped body. -/
def quoteStr (s : JsStr) : List Char := '"' :: (s.map escapeChar).join ++ ['"']

/-- Decimal digits of a natural number, most significant first. -/
def natToDigits (n : Nat) : List Char :=
  if h : n < 10 then [hexDigitChar n]
  else natToDigits (n / 10) ++ [hexDigitChar (n % 10)]
  termination_by n
  decreasing_by exact Nat.div_lt_self (by omega) (by omega)

/-- Decimal rendering of an integer. -/
def intToChars (n : Int) : List Char :=
  if n < 0 then '-' :: natToDigits n.natAbs else natToDigits n.toNat

mutual

/-- `JSON.stringify` (no indentation), on the modelled fragment. -/
def stringifyJson : Json → List Char
  | .null => "null".data
  | .bool b => if b then "true".data else "false".data
  | .num n => intToChars n
  | .str s => quoteStr s
  | .arr xs => '[' :: stringifyElems xs ++ [']']
  | .obj ms => '{' :: stringifyMembers ms ++ ['}']

def stringifyElems : List Json → List Char
  | [] => []
  | [x] => stringifyJson x
  | x :: y :: rest => stringifyJson x ++ ',' :: stringifyElems (y :: rest)

def stringifyMembers : List (JsStr × Json) → List Char
  | [] => []
  | [(k, v)] => quoteStr k ++ ':' :: stringifyJson v
  | (k, v) :: m :: rest =>
      quoteStr k ++ ':' :: stringifyJson v ++ ',' :: stringifyMembers (m :: rest)

end

/-! ### `JSON.parse` -/

def isJsonWs (c : Char) : Bool := c = ' ' || c = '\t' || c = '\n' || c = '\r'

def skipWs : List Char → List Char
  | [] => []
  | c :: rest => if isJsonWs c then skipWs rest else c :: rest

theorem skipWs_length_le (s : List Char) : (skipWs s).length ≤ s.length := by
  induction s with
  | nil => exact Nat.le_refl _
  | cons c rest ih =>
      simp only [skipWs]
      split
      · exact Nat.le_trans ih (by simp)
      · simp

/-- Expect a literal character sequence, returning the remainder. -/
def stripLit : List Char → List Char → Option (List Char)
  | [], s => some s
  | _ :: _, [] => none
  | c :: p, x :: s => if x = c then stripLit p s else none

theorem stripLit_length : ∀ {p s t : List Char}, stripLit p s = some t →
    t.length ≤ s.length := by
  intro p
  induction p with
  | nil =>
      intro s t h
      simp only [stripLit, Option.some.injEq] at h
      subst h; exact Nat.le_refl _
  | cons c p ih =>
      intro s t h
      cases s with
      | nil => exact absurd h (by simp [stripLit])
      | cons x s =>
          simp only [stripLit] at h
          split at h
          · exact Nat.le_trans (ih h) (by simp)
          · exact absurd h (by simp)

/-- Value of a hex digit character. -/
def hexVal (c : Char) : Option Nat :=
  if 48 ≤ c.toNat ∧ c.toNat ≤ 57 then some (c.toNat - 48)
  else if 97 ≤ c.toNat ∧ c.toNat ≤ 102 then some (c.toNat - 87)
  else if 65 ≤ c.toNat ∧ c.toNat ≤ 70 then some (c.toNat - 55)
  else none

/-- A parse result: value, remaining input, strictly shorter than the
input length `n`. -/
structure PRes (α : Type) (n : Nat) where
  val : α
  rest : List Char
  lt : rest.length < n

/-- Parse the body of a JSON string literal (after the opening quote),
returning the decoded characters and the input after the closing
quote. -/
def parseStringBody : (s : List Char) → Option (PRes JsStr s.length)
  | [] => none
  | c :: rest =>
      if c = '"' then some ⟨[], rest, by simp⟩
      else if c = '\\' then
        match rest with
        | [] => none
        | e :: r =>
            if e = '"' then
              (parseStringBody r).map
                (fun p => ⟨'"' :: p.val, p.rest, by have := p.lt; simp only [List.length_cons]; omega⟩)
            else if e = '\\' then
              (parseStringBody r).map
                (fun p => ⟨'\\' :: p.val, p.rest, by have := p.lt; simp only [List.length_cons]; omega⟩)
            else if e = '/' then
              (parseStringBody r).map
                (fun p => ⟨'/' :: p.val, p.rest, by have := p.lt; simp only [List.length_cons]; omega⟩)
            else if e = 'b' then
              (parseStringBody r).map
                (fun p => ⟨'\x08' :: p.val, p.rest, by have := p.lt; simp only [List.length_cons]; omega⟩)
            else if e = 'f' then
              (parseStringBody r).map
                (fun p => ⟨'\x0c' :: p.val, p.rest, by have := p.lt; simp only [List.length_cons]; omega⟩)
            else if e = 'n' then
              (parseStringBody r).map
                (fun p => ⟨'\n' :: p.val, p.rest, by have := p.lt; simp only [List.length_cons]; omega⟩)
            else if e = 'r' then
              (parseStringBody r).map
                (fun p => ⟨'\r' :: p.val, p.rest, by have := p.lt; simp only [List.length_cons]; omega⟩)
            else if e = 't' then
              (parseStringBody r).map
                (fun p => ⟨'\t' :: p.val, p.rest, by have := p.lt; simp only [List.length_cons]; omega⟩)
            else if e = 'u' then
              match r with
              | h1 :: h2 :: h3 :: h4 :: r2 =>
                  match hexVal h1, hexVal h2, hexVal h3, hexVal h4 with
                  | some v1, some v2, some v3, some v4 =>
                      (parseStringBody r2).map
                        (fun p => ⟨Char.ofNat (((v1 * 16 + v2) * 16 + v3) * 16 + v4) :: p.val,
                          p.rest, by have := p.lt; simp only [List.length_cons]; omega⟩)
                  | _, _, _, _ => none
              | _ => none
            else none
      else if c.toNat < 32 then none
      else
        (parseStringBody rest).map
          (fun p => ⟨c :: p.val, p.rest, by have := p.lt; simp only [List.length_cons]; omega⟩)

/-- Leading run of decimal digits (as values) and the remainder. -/
def parseDigits : List Char → List Nat × List Char
  | [] => ([], [])
  | c :: rest =>
      if 48 ≤ c.toNat ∧ c.toNat ≤ 57 then
        let p := parseDigits rest
        ((c.toNat - 48) :: p.1, p.2)
      else ([], c :: rest)

def digitsVal (ds : List Nat) : Nat := ds.foldl (fun a d => a * 10 + d) 0

/-- Parse an unsigned JSON integer (rejecting a leading zero before
further digits). -/
def parseNumberNat (s : List Char) : Option (Nat × List Char) :=
  match parseDigits s with
  | ([], _) => none
  | ([d], t) => some (d, t)
  | (0 :: _ :: _, _) => none
  | (ds, t) => some (digitsVal ds, t)

/-- Parse a JSON integer (the numeric fragment the codec exercises). -/
def parseNumber : List Char → Option (Int × List Char)
  | [] => none
  | c :: rest =>
      if c = '-' then (parseNumberNat rest).map (fun p => (-(p.1 : Int), p.2))
      else (parseNumberNat (c :: rest)).map (fun p => ((p.1 : Int), p.2))

/-- JS object-member accumulation: a later duplicate key overwrites in
place, otherwise the member is appended. -/
def insertMember (ms : List (JsStr × Json)) (k : JsStr) (v : Json) :
    List (JsStr × Json) :=
  match ms with
  | [] => [(k, v)]
  | (k', v') :: rest => if k' = k then (k, v) :: rest else (k', v') :: insertMember rest k v

theorem parseDigits_length (s : List Char) :
    (parseDigits s).2.length + (parseDigits s).1.length = s.length := by
  induction s with
  | nil => rfl
  | cons c rest ih =>
      simp only [parseDigits]
      split
      · simpa using by omega
      · simp

theorem parseNumberNat_length {s : List Char} {q : Nat × List Char}
    (h : parseNumberNat s = some q) : q.2.length < s.length := by
  have hd := parseDigits_length s
  unfold parseNumberNat at h
  split at h
  · exact absurd h (by simp)
  · rename_i d t heq
    rw [heq] at hd
    injection h with h1; subst h1
    simp at hd ⊢; omega
  · exact absurd h (by simp)
  · rename_i x dsv rem hn1 hn2 hn3 heq
    rw [heq] at hd
    injection h with h3; subst h3
    have hne : dsv ≠ [] := fun hh => hn1 hh
    have : 1 ≤ dsv.length := by
      cases dsv with
      | nil => exact absurd rfl hne
      | cons => simp
    simp at hd ⊢; omega

theorem parseNumber_length {s : List Char} {q : Int × List Char}
    (h : parseNumber s = some q) : q.2.length < s.length := by
  cases s with
  | nil => exact absurd h (by simp [parseNumber])
  | cons c rest =>
      simp only [parseNumber] at h
      split at h
      · rcases Option.map_eq_some'.1 h with ⟨p, hp, rfl⟩
        have := parseNumberNat_length hp
        simp only [List.length_cons]; omega
      · rcases Option.map_eq_some'.1 h with ⟨p, hp, rfl⟩
        have := parseNumberNat_length hp
        exact this

/-- Lift a parse result along a length bound. -/
def liftP {α : Type} {m n : Nat} (h : m ≤ n) :
    Option (PRes α m) → Option (PRes α n) :=
  Option.map (fun r => ⟨r.val, r.rest, Nat.lt_of_lt_of_le r.lt h⟩)

/-- `stripLit` with the length bound in the result. -/
def stripLitP : (p s : List Char) → Option {t : List Char // t.length ≤ s.length}
  | [], s => some ⟨s, Nat.le_refl _⟩
  | _ :: _, [] => none
  | c :: p, x :: s =>
      if x = c then
        (stripLitP p s).map
          (fun t => ⟨t.1, by have := t.2; simp only [List.length_cons]; omega⟩)
      else none

/-- `parseNumber` with the consumption proof in the result. -/
def parseNumberP (s : List Char) : Option (PRes Int s.length) :=
  match hn : parseNumber s with
  | none => none
  | some q => some ⟨q.1, q.2, parseNumber_length hn⟩

mutual

/-- One JSON value (leading whitespace allowed), recursive descent. -/
def parseValue (s : List Char) : Option (PRes Json s.length) :=
  liftP (skipWs_length_le s) (parseValueCore (skipWs s))
  termination_by 4 * s.length + 1
  decreasing_by have := skipWs_length_le s; omega

/-- Dispatch on the first significant character. -/
def parseValueCore : (s : List Char) → Option (PRes Json s.length)
  | [] => none
  | c :: r =>
      if c = '{' then
        (parseMembersFirst r).map
          (fun res => ⟨.obj res.val, res.rest, by
            have := res.lt; simp only [List.length_cons]; omega⟩)
      else if c = '[' then
        (parseElemsFirst r).map
          (fun res => ⟨.arr res.val, res.rest, by
            have := res.lt; simp only [List.length_cons]; omega⟩)
      else if c = '"' then
        (parseStringBody r).map
          (fun p => ⟨.str p.val, p.rest, by
            have := p.lt; simp only [List.length_cons]; omega⟩)
      else if c = 'n' then
        (stripLitP "ull".data r).map
          (fun t => ⟨.null, t.1, by
            have := t.2; simp only [List.length_cons]; omega⟩)
      else if c = 't' then
        (stripLitP "rue".data r).map
          (fun t => ⟨.bool true, t.1, by
            have := t.2; simp only [List.length_cons]; omega⟩)
      else if c = 'f' then
        (stripLitP "alse".data r).map
          (fun t => ⟨.bool false, t.1, by
            have := t.2; simp only [List.length_cons]; omega⟩)
      else
        (parseNumberP (c :: r)).map (fun q => ⟨.num q.val, q.rest, q.lt⟩)
  termination_by s => 4 * s.length
  decreasing_by all_goals (simp only [List.length_cons]; omega)

/-- Object body after `{` (whitespace skipped). -/
def parseMembersFirst (s : List Char) :
    Option (PRes (List (JsStr × Json)) s.length) :=
  liftP (skipWs_length_le s) (parseMembersFirstCore (skipWs s))
  termination_by 4 * s.length + 1
  decreasing_by have := skipWs_length_le s; omega

/-- Object body after `{`: `}` or a first member plus the loop. -/
def parseMembersFirstCore : (s : List Char) →
    Option (PRes (List (JsStr × Json)) s.length)
  | [] => none
  | c :: r =>
      if c = '}' then some ⟨[], r, by simp⟩
      else if c = '"' then
        (parseStringBody r).bind (fun p =>
          (parseMemberTail p.val [] p.rest).map (fun res =>
            ⟨res.val, res.rest, by
              have := res.lt; have := p.lt; simp only [List.length_cons]; omega⟩))
      else none
  termination_by s => 4 * s.length
  decreasing_by all_goals
    ((try have hp := p.lt); simp only [List.length_cons] at *; omega)

/-- After a member's key: whitespace, then `:`, value, loop. -/
def parseMemberTail (k : JsStr) (acc : List (JsStr × Json)) (s : List Char) :
    Option (PRes (List (JsStr × Json)) s.length) :=
  liftP (skipWs_length_le s) (parseMemberTailCore k acc (skipWs s))
  termination_by 4 * s.length + 1
  decreasing_by have := skipWs_length_le s; omega

def parseMemberTailCore (k : JsStr) (acc : List (JsStr × Json)) :
    (s : List Char) → Option (PRes (List (JsStr × Json)) s.length)
  | [] => none
  | c :: t =>
      if c = ':' then
        (parseValue t).bind (fun v =>
          (parseMembersLoop (insertMember acc k v.val) v.rest).map (fun res =>
            ⟨res.val, res.rest, by
              have := res.lt; have := v.lt; simp only [List.length_cons]; omega⟩))
      else none
  termination_by s => 4 * s.length
  decreasing_by all_goals
    ((try have hv := v.lt); simp only [List.length_cons] at *; omega)

/-- Member loop (whitespace skipped). -/
def parseMembersLoop (acc : List (JsStr × Json)) (s : List Char) :
    Option (PRes (List (JsStr × Json)) s.length) :=
  liftP (skipWs_length_le s) (parseMembersLoopCore acc (skipWs s))
  termination_by 4 * s.length + 1
  decreasing_by have := skipWs_length_le s; omega

/-- Member loop: `}` closes, `,` continues with another member. -/
def parseMembersLoopCore (acc : List (JsStr × Json)) :
    (s : List Char) → Option (PRes (List (JsStr × Json)) s.length)
  | [] => none
  | c :: r =>
      if c = '}' then some ⟨acc, r, by simp⟩
      else if c = ',' then
        (parseMembersKey acc r).map (fun res =>
          ⟨res.val, res.rest, by
            have := res.lt; simp only [List.length_cons]; omega⟩)
      else none
  termination_by s => 4 * s.length
  decreasing_by all_goals (simp only [List.length_cons]; omega)

/-- A further member after `,` (whitespace skipped). -/
def parseMembersKey (acc : List (JsStr × Json)) (s : List Char) :
    Option (PRes (List (JsStr × Json)) s.length) :=
  liftP (skipWs_length_le s) (parseMembersKeyCore acc (skipWs s))
  termination_by 4 * s.length + 1
  decreasing_by have := skipWs_length_le s; omega

/-- A further member: its key string, then the tail. -/
def parseMembersKeyCore (acc : List (JsStr × Json)) :
    (s : List Char) → Option (PRes (List (JsStr × Json)) s.length)
  | [] => none
  | c :: r =>
      if c = '"' then
        (parseStringBody r).bind (fun p =>
          (parseMemberTail p.val acc p.rest).map (fun res =>
            ⟨res.val, res.rest, by
              have := res.lt; have := p.lt; simp only [List.length_cons]; omega⟩))
      else none
  termination_by s => 4 * s.length
  decreasing_by all_goals
    ((try have hp := p.lt); simp only [List.length_cons] at *; omega)

/-- Array body after `[` (whitespace skipped). -/
def parseElemsFirst (s : List Char) : Option (PRes (List Json) s.length) :=
  liftP (skipWs_length_le s) (parseElemsFirstCore (skipWs s))
  termination_by 4 * s.length + 3
  decreasing_by have := skipWs_length_le s; omega

/-- Array body after `[`: `]` or a first element plus the loop. -/
def parseElemsFirstCore : (s : List Char) → Option (PRes (List Json) s.length)
  | [] => none
  | c :: r =>
      if c = ']' then some ⟨[], r, by simp⟩
      else
        (parseValue (c :: r)).bind (fun v =>
          (parseElemsLoop [v.val] v.rest).map (fun res =>
            ⟨res.val, res.rest, by have := res.lt; have := v.lt; omega⟩))
  termination_by s => 4 * s.length + 2
  decreasing_by all_goals
    ((try have hv := v.lt); simp only [List.length_cons] at *; omega)

/-- Element loop (whitespace skipped). -/
def parseElemsLoop (acc : List Json) (s : List Char) :
    Option (PRes (List Json) s.length) :=
  liftP (skipWs_length_le s) (parseElemsLoopCore acc (skipWs s))
  termination_by 4 * s.length + 1
  decreasing_by have := skipWs_length_le s; omega

/-- Element loop: `]` closes, `,` continues with another value. -/
def parseElemsLoopCore (acc : List Json) :
    (s : List Char) → Option (PRes (List Json) s.length)
  | [] => none
  | c :: r =>
      if c = ']' then some ⟨acc, r, by simp⟩
      else if c = ',' then
        (parseValue r).bind (fun v =>
          (parseElemsLoop (acc ++ [v.val]) v.rest).map (fun res =>
            ⟨res.val, res.rest, by
              have := res.lt; have := v.lt; simp only [List.length_cons]; omega⟩))
      else none
  termination_by s => 4 * s.length
  decreasing_by all_goals
    ((try have hv := v.lt); simp only [List.length_cons] at *; omega)

end

/-- Forget the consumption proof of a parse result. -/
def pOut {α : Type} {n : Nat} (o : Option (PRes α n)) : Option (α × List Char) :=
  o.map (fun r => (r.val, r.rest))

/-- `JSON.parse`: one complete value, with only whitespace after it. -/
def jsonParse (s : List Char) : Option Json :=
  match parseValue s with
  | none => none
  | some res => if skipWs res.rest = [] then some res.val else none

/-! ## The codec of `src/save-manager.js` -/

/-- A Snapshot: the `files` object collected from the filesystem — a
JS object mapping path strings to arrays of byte values, in insertion
order. -/
abbrev Snapshot := List (JsStr × List Nat)

/-- The JSON number of one byte value. -/
def byteJson (b : Nat) : Json := .num (b : Int)

/-- The JSON value of a snapshot object, as `JSON.stringify` sees it. -/
def jsonOfSnapshot (files : Snapshot) : Json :=
  .obj (files.map (fun e => (e.1, .arr (e.2.map byteJson))))

/-- `serialize` (src/save-manager.js:77-79):
`btoa(JSON.stringify(files))`.  `none` models the
`InvalidCharacterError` `btoa` throws on non-Latin-1 text. -/
def serialize (files : Snapshot) : Option JsStr :=
  btoa (stringifyJson (jsonOfSnapshot files))

/-- `deserialize` (src/save-manager.js:81-87):
`try { return JSON.parse(atob(str)) } catch { return null }`.  The JS
function returns a value in every case; exceptions are mapped to
`null`, exactly as a parsed JSON `null` is. -/
def deserialize (str : JsStr) : Json :=
  match atob str with
  | none => .null
  | some t =>
      match jsonParse t with
      | none => .null
      | some v => v

/-- JS truthiness of a decoded value (`!data`). -/
def jsTruthy : Json → Bool
  | .null => false
  | .bool b => b
  | .num n => n ≠ 0
  | .str s => s ≠ []
  | .arr _ => true
  | .obj _ => true

/-- `typeof data === 'object'` for a decoded value: true for `null`,
arrays and plain objects. -/
def jsTypeofObject : Json → Bool
  | .null => true
  | .arr _ => true
  | .obj _ => true
  | _ => false

/-- A decoded value is a plain object mapping (what the spec calls a
Snapshot-shaped value). -/
def isPlainObj : Json → Bool
  | .obj _ => true
  | _ => false

/-! ### Parse/stringify round trip on the codec's value fragment -/

theorem hexVal_hexDigitChar : ∀ d, d < 16 → hexVal (hexDigitChar d) = some d := by
  decide

theorem pOut_eq_some {α : Type} {n : Nat} {o : Option (PRes α n)} {v : α}
    {t : List Char} (h : pOut o = some (v, t)) :
    ∃ res, o = some res ∧ res.val = v ∧ res.rest = t := by
  rcases o with _ | res
  · exact absurd h (by simp [pOut])
  · refine ⟨res, rfl, ?_, ?_⟩ <;>
      (injection h with h1 <;> cases h1 <;> rfl)

theorem parseStringBody_quoted (s : JsStr) (rest : List Char) :
    pOut (parseStringBody ((s.map escapeChar).join ++ '"' :: rest)) = some (s, rest) := by
  induction s with
  | nil =>
      simp only [List.map_nil, List.join, List.nil_append]
      rw [parseStringBody.eq_def]
      simp [pOut]
  | cons c cs ih =>
      obtain ⟨res, hres, hval, hrest⟩ := pOut_eq_some ih
      have hjoin : ((c :: cs).map escapeChar).join
          = escapeChar c ++ (cs.map escapeChar).join := by simp
      rw [hjoin, List.append_assoc]
      by_cases h1 : c = '"'
      · subst h1
        have hesc : escapeChar '"' = ['\\', '"'] := by decide
        rw [hesc]
        simp only [List.cons_append, List.nil_append]
        rw [parseStringBody.eq_def]
        simp [hres, pOut, hval, hrest]
      · by_cases h2 : c = '\\'
        · subst h2
          have hesc : escapeChar '\\' = ['\\', '\\'] := by decide
          rw [hesc]
          simp only [List.cons_append, List.nil_append]
          rw [parseStringBody.eq_def]
          simp [hres, pOut, hval, hrest]
        · by_cases h3 : c = '\x08'
          · subst h3
            have hesc : escapeChar '\x08' = ['\\', 'b'] := by decide
            rw [hesc]
            simp only [List.cons_append, List.nil_append]
            rw [parseStringBody.eq_def]
            simp [hres, pOut, hval, hrest]
          · by_cases h4 : c = '\t'
            · subst h4
              have hesc : escapeChar '\t' = ['\\', 't'] := by decide
              rw [hesc]
              simp only [List.cons_append, List.nil_append]
              rw [parseStringBody.eq_def]
              simp [hres, pOut, hval, hrest]
            · by_cases h5 : c = '\n'
              · subst h5
                have hesc : escapeChar '\n' = ['\\', 'n'] := by decide
                rw [hesc]
                simp only [List.cons_append, List.nil_append]
                rw [parseStringBody.eq_def]
                simp [hres, pOut, hval, hrest]
              · by_cases h6 : c = '\x0c'
                · subst h6
                  have hesc : escapeChar '\x0c' = ['\\', 'f'] := by decide
                  rw [hesc]
                  simp only [List.cons_append, List.nil_append]
                  rw [parseStringBody.eq_def]
                  simp [hres, pOut, hval, hrest]
                · by_cases h7 : c = '\r'
                  · subst h7
                    have hesc : escapeChar '\r' = ['\\', 'r'] := by decide
                    rw [hesc]
                    simp only [List.cons_append, List.nil_append]
                    rw [parseStringBody.eq_def]
                    simp [hres, pOut, hval, hrest]
                  · by_cases h8 : c.toNat < 32
                    · have e0 : hexVal '0' = some 0 := by decide
                      have e1 : hexVal (hexDigitChar (c.toNat / 16)) = some (c.toNat / 16) :=
                        hexVal_hexDigitChar _ (by omega)
                      have e2 : hexVal (hexDigitChar (c.toNat % 16)) = some (c.toNat % 16) :=
                        hexVal_hexDigitChar _ (by omega)
                      have harith : ((0 * 16 + 0) * 16 + c.toNat / 16) * 16 + c.toNat % 16
                          = c.toNat := by omega
                      have hesc : escapeChar c = ['\\', 'u', '0', '0',
                          hexDigitChar (c.toNat / 16), hexDigitChar (c.toNat % 16)] := by
                        simp only [escapeChar, if_neg h1, if_neg h2, if_neg h3, if_neg h4,
                          if_neg h5, if_neg h6, if_neg h7, if_pos h8]
                      rw [hesc]
                      simp only [List.cons_append, List.nil_append]
                      rw [parseStringBody.eq_def]
                      simp [e0, e1, e2, hres, pOut, hval, hrest]
                      rw [show c.toNat / 16 * 16 + c.toNat % 16 = c.toNat from by omega,
                        Char.ofNat_toNat]
                    · have hesc : escapeChar c = [c] := by
                        simp only [escapeChar, if_neg h1, if_neg h2, if_neg h3, if_neg h4,
                          if_neg h5, if_neg h6, if_neg h7, if_neg h8]
                      rw [hesc]
                      simp only [List.singleton_append]
                      rw [parseStringBody.eq_def]
                      simp [if_neg h1, if_neg h2, if_neg h8, hres, pOut, hval, hrest]

/-! #### Numbers -/

theorem hexDigitChar_val : ∀ d, d < 10 → (hexDigitChar d).toNat = 48 + d := by decide

theorem natToDigits_ne_nil (n : Nat) : natToDigits n ≠ [] := by
  rw [natToDigits.eq_def]
  split <;> simp

theorem natToDigits_digits (n : Nat) :
    ∀ c ∈ natToDigits n, 48 ≤ c.toNat ∧ c.toNat ≤ 57 := by
  induction n using natToDigits.induct with
  | case1 n h =>
      intro c hc
      rw [natToDigits.eq_def, dif_pos h] at hc
      simp at hc
      subst hc
      have := hexDigitChar_val n h
      omega
  | case2 n h ih =>
      intro c hc
      rw [natToDigits.eq_def, dif_neg h] at hc
      rcases List.mem_append.1 hc with h1 | h1
      · exact ih c h1
      · simp at h1
        subst h1
        have := hexDigitChar_val (n % 10) (by omega)
        omega

theorem digitsVal_append (ds : List Nat) (d : Nat) :
    digitsVal (ds ++ [d]) = digitsVal ds * 10 + d := by
  unfold digitsVal
  rw [List.foldl_append]
  rfl

theorem digitsVal_natToDigits (n : Nat) :
    digitsVal ((natToDigits n).map (fun c => c.toNat - 48)) = n := by
  induction n using natToDigits.induct with
  | case1 n h =>
      rw [natToDigits.eq_def, dif_pos h]
      simp only [List.map_cons, List.map_nil]
      rw [hexDigitChar_val n h]
      simp [digitsVal]
  | case2 n h ih =>
      rw [natToDigits.eq_def, dif_neg h]
      rw [List.map_append]
      simp only [List.map_cons, List.map_nil]
      rw [digitsVal_append, ih, hexDigitChar_val (n % 10) (by omega)]
      omega

theorem natToDigits_head : ∀ n, 1 ≤ n →
    ∃ d ds, natToDigits n = d :: ds ∧ d.toNat ≠ 48 := by
  intro n
  induction n using natToDigits.induct with
  | case1 n h =>
      intro hn
      refine ⟨hexDigitChar n, [], by rw [natToDigits.eq_def, dif_pos h], ?_⟩
      have := hexDigitChar_val n h
      omega
  | case2 n h ih =>
      intro _
      rcases ih (by omega) with ⟨d, ds, hd, hne⟩
      exact ⟨d, ds ++ [hexDigitChar (n % 10)],
        by rw [natToDigits.eq_def, dif_neg h, hd]; rfl, hne⟩

/-- The input does not begin with a decimal digit (so a digit run ends
exactly there). -/
def noDigitHead : List Char → Prop
  | [] => True
  | c :: _ => ¬(48 ≤ c.toNat ∧ c.toNat ≤ 57)

theorem parseDigits_append (xs rest : List Char)
    (hx : ∀ c ∈ xs, 48 ≤ c.toNat ∧ c.toNat ≤ 57) (hr : noDigitHead rest) :
    parseDigits (xs ++ rest) = (xs.map (fun c => c.toNat - 48), rest) := by
  induction xs with
  | nil =>
      simp only [List.nil_append, List.map_nil]
      cases rest with
      | nil => rfl
      | cons c t =>
          unfold noDigitHead at hr
          simp [parseDigits, hr]
  | cons c xs ih =>
      have hc := hx c (by simp)
      simp only [List.cons_append, parseDigits, if_pos hc, List.append_eq]
      rw [ih (fun c hc2 => hx c (by simp [hc2]))]
      simp

theorem parseNumber_natToDigits (n : Nat) (rest : List Char) (hr : noDigitHead rest) :
    parseNumber (natToDigits n ++ rest) = some ((n : Int), rest) := by
  obtain ⟨d0, ds0, hshape⟩ : ∃ d ds, natToDigits n = d :: ds := by
    cases hh : natToDigits n with
    | nil => exact absurd hh (natToDigits_ne_nil n)
    | cons d ds => exact ⟨d, ds, rfl⟩
  have hdig := natToDigits_digits n
  have hd0 : 48 ≤ d0.toNat ∧ d0.toNat ≤ 57 := hdig d0 (by rw [hshape]; simp)
  have hpd : parseDigits (natToDigits n ++ rest)
      = ((natToDigits n).map (fun c => c.toNat - 48), rest) :=
    parseDigits_append _ _ hdig hr
  have hval := digitsVal_natToDigits n
  have hneg : d0 ≠ '-' := by
    intro hh
    rw [hh] at hd0
    revert hd0
    decide
  rw [hshape, List.cons_append, parseNumber.eq_def]
  simp only [if_neg hneg]
  rw [← List.cons_append, ← hshape]
  unfold parseNumberNat
  rw [hpd, hshape]
  simp only [List.map_cons]
  cases ds0 with
  | nil =>
      rw [hshape] at hval
      simp only [List.map_cons, List.map_nil] at hval
      have : digitsVal [d0.toNat - 48] = d0.toNat - 48 := by simp [digitsVal]
      rw [this] at hval
      simp [hval]
  | cons e t =>
      have hn10 : 1 ≤ n := by
        by_contra hcon
        have hz : n = 0 := by omega
        subst hz
        rw [show natToDigits 0 = ['0'] from by rw [natToDigits.eq_def]; simp; rfl] at hshape
        injection hshape with _ h2
        exact absurd h2.symm (by simp)
      obtain ⟨d1, ds1, hd1, hne1⟩ := natToDigits_head n hn10
      rw [hshape] at hd1
      injection hd1 with he1 _
      subst he1
      rw [hshape] at hval
      simp only [List.map_cons] at hval
      rcases hd0v : d0.toNat - 48 with _ | k
      · omega
      · rw [hd0v] at hval
        try rw [hd0v]
        simp [hval]

/-! #### Values and containers -/

theorem pOut_liftP {α : Type} {m n : Nat} (h : m ≤ n) (o : Option (PRes α m)) :
    pOut (liftP h o) = pOut o := by
  cases o <;> simp [liftP, pOut]

theorem skipWs_not_ws {c : Char} (r : List Char) (h : isJsonWs c = false) :
    skipWs (c :: r) = c :: r := by simp [skipWs, h]

theorem char_ne_of_toNat_ne {c d : Char} (h : c.toNat ≠ d.toNat) : c ≠ d :=
  fun hh => h (by rw [hh])

theorem digit_char_facts {c : Char} (h48 : 48 ≤ c.toNat) (h57 : c.toNat ≤ 57) :
    isJsonWs c = false ∧ c ≠ '{' ∧ c ≠ '[' ∧ c ≠ '"' ∧ c ≠ 'n' ∧ c ≠ 't' ∧
      c ≠ 'f' ∧ c ≠ ']' := by
  have hsp : c ≠ ' ' := char_ne_of_toNat_ne (by show c.toNat ≠ 32; omega)
  have hta : c ≠ '\t' := char_ne_of_toNat_ne (by show c.toNat ≠ 9; omega)
  have hnl : c ≠ '\n' := char_ne_of_toNat_ne (by show c.toNat ≠ 10; omega)
  have hcr : c ≠ '\r' := char_ne_of_toNat_ne (by show c.toNat ≠ 13; omega)
  refine ⟨by simp [isJsonWs, hsp, hta, hnl, hcr], ?_, ?_, ?_, ?_, ?_, ?_, ?_⟩
  · exact char_ne_of_toNat_ne (by show c.toNat ≠ 123; omega)
  · exact char_ne_of_toNat_ne (by show c.toNat ≠ 91; omega)
  · exact char_ne_of_toNat_ne (by show c.toNat ≠ 34; omega)
  · exact char_ne_of_toNat_ne (by show c.toNat ≠ 110; omega)
  · exact char_ne_of_toNat_ne (by show c.toNat ≠ 116; omega)
  · exact char_ne_of_toNat_ne (by show c.toNat ≠ 102; omega)
  · exact char_ne_of_toNat_ne (by show c.toNat ≠ 93; omega)

theorem pOut_parseNumberP (s : List Char) :
    pOut (parseNumberP s) = parseNumber s := by
  unfold parseNumberP
  split <;> simp_all [pOut]

/-! #### Step equations of the parser at the `pOut` level -/

theorem pOut_valueCore_obj (r : List Char) :
    pOut (parseValueCore ('{' :: r))
      = (pOut (parseMembersFirst r)).map (fun q => (Json.obj q.1, q.2)) := by
  rw [parseValueCore.eq_def]
  simp only []
  split
  · cases h : parseMembersFirst r <;> simp [pOut]
  · rename_i h; exact absurd trivial h

theorem pOut_valueCore_arr (r : List Char) :
    pOut (parseValueCore ('[' :: r))
      = (pOut (parseElemsFirst r)).map (fun q => (Json.arr q.1, q.2)) := by
  rw [parseValueCore.eq_def]
  simp only []
  split
  · rename_i h; exact absurd h (by decide)
  · split
    · cases h : parseElemsFirst r <;> simp [pOut]
    · rename_i h; exact absurd trivial h

theorem pOut_valueCore_str (r : List Char) :
    pOut (parseValueCore ('"' :: r))
      = (pOut (parseStringBody r)).map (fun q => (Json.str q.1, q.2)) := by
  rw [parseValueCore.eq_def]
  simp only []
  split
  · rename_i h; exact absurd h (by decide)
  · split
    · rename_i h; exact absurd h (by decide)
    · split
      · cases h : parseStringBody r <;> simp [pOut]
      · rename_i h; exact absurd trivial h

theorem pOut_valueCore_num (c : Char) (r : List Char)
    (h48 : 48 ≤ c.toNat) (h57 : c.toNat ≤ 57) :
    pOut (parseValueCore (c :: r))
      = (parseNumber (c :: r)).map (fun q => (Json.num q.1, q.2)) := by
  have hf := digit_char_facts h48 h57
  rw [parseValueCore.eq_def]
  simp only []
  split
  · rename_i h; exact absurd h hf.2.1
  · split
    · rename_i h; exact absurd h hf.2.2.1
    · split
      · rename_i h; exact absurd h hf.2.2.2.1
      · split
        · rename_i h; exact absurd h hf.2.2.2.2.1
        · split
          · rename_i h; exact absurd h hf.2.2.2.2.2.1
          · split
            · rename_i h; exact absurd h hf.2.2.2.2.2.2.1
            · rw [← pOut_parseNumberP]
              cases h : parseNumberP (c :: r) <;> simp [pOut]

theorem pOut_membersFirstCore_close (r : List Char) :
    pOut (parseMembersFirstCore ('}' :: r)) = some ([], r) := by
  rw [parseMembersFirstCore.eq_def]
  simp only []
  split
  · rfl
  · rename_i h; exact absurd trivial h

theorem pOut_membersFirstCore_key (r : List Char) :
    pOut (parseMembersFirstCore ('"' :: r))
      = (pOut (parseStringBody r)).bind (fun q => pOut (parseMemberTail q.1 [] q.2)) := by
  rw [parseMembersFirstCore.eq_def]
  simp only []
  split
  · rename_i h; exact absurd h (by decide)
  · split
    · cases hp : parseStringBody r with
      | none => simp [pOut]
      | some p =>
          simp only [Option.some_bind]
          cases ht : parseMemberTail p.val [] p.rest <;> simp [pOut, ht]
    · rename_i h; exact absurd trivial h

theorem pOut_memberTailCore_colon (k : JsStr) (acc : List (JsStr × Json))
    (t : List Char) :
    pOut (parseMemberTailCore k acc (':' :: t))
      = (pOut (parseValue t)).bind
          (fun q => pOut (parseMembersLoop (insertMember acc k q.1) q.2)) := by
  rw [parseMemberTailCore.eq_def]
  simp only []
  split
  · cases hv : parseValue t with
    | none => simp [pOut]
    | some v =>
        simp only [Option.some_bind]
        cases hl : parseMembersLoop (insertMember acc k v.val) v.rest <;>
          simp [pOut, hl]
  · rename_i h; exact absurd trivial h

theorem pOut_membersLoopCore_close (acc : List (JsStr × Json)) (r : List Char) :
    pOut (parseMembersLoopCore acc ('}' :: r)) = some (acc, r) := by
  rw [parseMembersLoopCore.eq_def]
  simp only []
  split
  · rfl
  · rename_i h; exact absurd trivial h

theorem pOut_membersLoopCore_comma (acc : List (JsStr × Json)) (r : List Char) :
    pOut (parseMembersLoopCore acc (',' :: r)) = pOut (parseMembersKey acc r) := by
  rw [parseMembersLoopCore.eq_def]
  simp only []
  split
  · rename_i h; exact absurd h (by decide)
  · split
    · cases h : parseMembersKey acc r <;> simp [pOut]
    · rename_i h; exact absurd trivial h

theorem pOut_membersKeyCore_quote (acc : List (JsStr × Json)) (r : List Char) :
    pOut (parseMembersKeyCore acc ('"' :: r))
      = (pOut (parseStringBody r)).bind (fun q => pOut (parseMemberTail q.1 acc q.2)) := by
  rw [parseMembersKeyCore.eq_def]
  simp only []
  split
  · cases hp : parseStringBody r with
    | none => simp [pOut]
    | some p =>
        simp only [Option.some_bind]
        cases ht : parseMemberTail p.val acc p.rest <;> simp [pOut, ht]
  · rename_i h; exact absurd trivial h

theorem pOut_elemsFirstCore_close (r : List Char) :
    pOut (parseElemsFirstCore (']' :: r)) = some ([], r) := by
  rw [parseElemsFirstCore.eq_def]
  simp only []
  split
  · rfl
  · rename_i h; exact absurd trivial h

theorem pOut_elemsFirstCore_value (c : Char) (r : List Char) (h : c ≠ ']') :
    pOut (parseElemsFirstCore (c :: r))
      = (pOut (parseValue (c :: r))).bind
          (fun q => pOut (parseElemsLoop [q.1] q.2)) := by
  rw [parseElemsFirstCore.eq_def]
  simp only []
  split
  · rename_i hcon; exact absurd hcon h
  · cases hv : parseValue (c :: r) with
    | none => simp [pOut]
    | some v =>
        simp only [Option.some_bind]
        cases hl : parseElemsLoop [v.val] v.rest <;> simp [pOut, hl]

theorem pOut_elemsLoopCore_close (acc : List Json) (r : List Char) :
    pOut (parseElemsLoopCore acc (']' :: r)) = some (acc, r) := by
  rw [parseElemsLoopCore.eq_def]
  simp only []
  split
  · rfl
  · rename_i h; exact absurd trivial h

theorem pOut_elemsLoopCore_comma (acc : List Json) (r : List Char) :
    pOut (parseElemsLoopCore acc (',' :: r))
      = (pOut (parseValue r)).bind
          (fun q => pOut (parseElemsLoop (acc ++ [q.1]) q.2)) := by
  rw [parseElemsLoopCore.eq_def]
  simp only []
  split
  · rename_i h; exact absurd h (by decide)
  · split
    · cases hv : parseValue r with
      | none => simp [pOut]
      | some v =>
          simp only [Option.some_bind]
          cases hl : parseElemsLoop (acc ++ [v.val]) v.rest <;> simp [pOut, hl]
    · rename_i h; exact absurd trivial h

theorem pOut_parseValue (s : List Char) :
    pOut (parseValue s) = pOut (parseValueCore (skipWs s)) := by
  unfold parseValue; rw [pOut_liftP]

theorem pOut_parseMembersFirst (s : List Char) :
    pOut (parseMembersFirst s) = pOut (parseMembersFirstCore (skipWs s)) := by
  unfold parseMembersFirst; rw [pOut_liftP]

theorem pOut_parseMemberTail (k : JsStr) (acc : List (JsStr × Json)) (s : List Char) :
    pOut (parseMemberTail k acc s) = pOut (parseMemberTailCore k acc (skipWs s)) := by
  unfold parseMemberTail; rw [pOut_liftP]

theorem pOut_parseMembersLoop (acc : List (JsStr × Json)) (s : List Char) :
    pOut (parseMembersLoop acc s) = pOut (parseMembersLoopCore acc (skipWs s)) := by
  unfold parseMembersLoop; rw [pOut_liftP]

theorem pOut_parseMembersKey (acc : List (JsStr × Json)) (s : List Char) :
    pOut (parseMembersKey acc s) = pOut (parseMembersKeyCore acc (skipWs s)) := by
  unfold parseMembersKey; rw [pOut_liftP]

theorem pOut_parseElemsFirst (s : List Char) :
    pOut (parseElemsFirst s) = pOut (parseElemsFirstCore (skipWs s)) := by
  unfold parseElemsFirst; rw [pOut_liftP]

theorem pOut_parseElemsLoop (acc : List Json) (s : List Char) :
    pOut (parseElemsLoop acc s) = pOut (parseElemsLoopCore acc (skipWs s)) := by
  unfold parseElemsLoop; rw [pOut_liftP]

/-! #### Round trip on the snapshot fragment -/

theorem stringify_byte (b : Nat) :
    stringifyJson (byteJson b) = natToDigits b := by
  rw [show stringifyJson (byteJson b) = intToChars (b : Int) from rfl]
  unfold intToChars
  rw [if_neg (by omega)]
  norm_num

theorem parseValue_byte (b : Nat) (rest : List Char) (hr : noDigitHead rest) :
    pOut (parseValue (natToDigits b ++ rest)) = some (byteJson b, rest) := by
  obtain ⟨d0, ds0, hshape⟩ : ∃ d ds, natToDigits b = d :: ds := by
    cases hh : natToDigits b with
    | nil => exact absurd hh (natToDigits_ne_nil b)
    | cons d ds => exact ⟨d, ds, rfl⟩
  have hd := natToDigits_digits b d0 (by rw [hshape]; simp)
  have hf := digit_char_facts hd.1 hd.2
  have hnum := parseNumber_natToDigits b rest hr
  rw [pOut_parseValue, hshape, List.cons_append, skipWs_not_ws _ hf.1,
    pOut_valueCore_num _ _ hd.1 hd.2, ← List.cons_append, ← hshape, hnum]
  rfl

/-- The textual tail of remaining array elements, one `,`-prefixed
element at a time. -/
def sepElems : List Json → List Char
  | [] => []
  | x :: t => ',' :: stringifyJson x ++ sepElems t

theorem stringifyElems_eq (x : Json) (t : List Json) :
    stringifyElems (x :: t) = stringifyJson x ++ sepElems t := by
  induction t generalizing x with
  | nil => simp [stringifyElems, sepElems]
  | cons y r ih =>
      rw [show stringifyElems (x :: y :: r)
          = stringifyJson x ++ ',' :: stringifyElems (y :: r) from rfl]
      rw [ih y]
      simp [sepElems]

/-- The textual tail of remaining object members. -/
def sepMembers : List (JsStr × Json) → List Char
  | [] => []
  | (k, v) :: t => ',' :: (quoteStr k ++ ':' :: stringifyJson v) ++ sepMembers t

theorem stringifyMembers_eq (k : JsStr) (v : Json) (t : List (JsStr × Json)) :
    stringifyMembers ((k, v) :: t)
      = (quoteStr k ++ ':' :: stringifyJson v) ++ sepMembers t := by
  induction t generalizing k v with
  | nil => simp [stringifyMembers, sepMembers]
  | cons m r ih =>
      rcases m with ⟨k2, v2⟩
      rw [show stringifyMembers ((k, v) :: (k2, v2) :: r)
          = quoteStr k ++ ':' :: stringifyJson v ++ ','
              :: stringifyMembers ((k2, v2) :: r) from rfl]
      rw [ih k2 v2]
      simp [sepMembers]

theorem sepElems_bytes_noDigitHead (xs : List Json) (rest : List Char) :
    noDigitHead (sepElems xs ++ ']' :: rest) := by
  cases xs with
  | nil =>
      simp only [sepElems, List.nil_append]
      show ¬(48 ≤ (']' : Char).toNat ∧ (']' : Char).toNat ≤ 57)
      decide
  | cons x t =>
      simp only [sepElems, List.cons_append]
      show ¬(48 ≤ (',' : Char).toNat ∧ (',' : Char).toNat ≤ 57)
      decide

theorem parseElemsLoop_bytes (bs : List Nat) (acc : List Json) (rest : List Char) :
    pOut (parseElemsLoop acc
        (sepElems (bs.map byteJson) ++ ']' :: rest))
      = some (acc ++ bs.map byteJson, rest) := by
  induction bs generalizing acc with
  | nil =>
      simp only [List.map_nil, sepElems, List.nil_append]
      rw [pOut_parseElemsLoop, skipWs_not_ws _ (by decide),
        pOut_elemsLoopCore_close]
      simp
  | cons b t ih =>
      simp only [List.map_cons, sepElems, List.cons_append, List.append_assoc]
      rw [pOut_parseElemsLoop, skipWs_not_ws _ (by decide),
        pOut_elemsLoopCore_comma, stringify_byte]
      rw [List.append_assoc]
      have hv := parseValue_byte b (sepElems (t.map byteJson) ++ ']' :: rest)
        (sepElems_bytes_noDigitHead _ _)
      simp only [hv, Option.some_bind]
      rw [ih (acc ++ [byteJson b])]
      simp

theorem parseElemsFirst_bytes (bs : List Nat) (rest : List Char) :
    pOut (parseElemsFirst
        (stringifyElems (bs.map byteJson) ++ ']' :: rest))
      = some (bs.map byteJson, rest) := by
  cases bs with
  | nil =>
      simp only [List.map_nil]
      rw [show stringifyElems [] = [] from rfl]
      simp only [List.nil_append]
      rw [pOut_parseElemsFirst, skipWs_not_ws _ (by decide),
        pOut_elemsFirstCore_close]
  | cons b t =>
      simp only [List.map_cons]
      rw [stringifyElems_eq, stringify_byte, List.append_assoc]
      obtain ⟨d0, ds0, hshape⟩ : ∃ d ds, natToDigits b = d :: ds := by
        cases hh : natToDigits b with
        | nil => exact absurd hh (natToDigits_ne_nil b)
        | cons d ds => exact ⟨d, ds, rfl⟩
      have hd := natToDigits_digits b d0 (by rw [hshape]; simp)
      have hf := digit_char_facts hd.1 hd.2
      rw [hshape, List.cons_append]
      rw [pOut_parseElemsFirst, skipWs_not_ws _ hf.1,
        pOut_elemsFirstCore_value _ _ hf.2.2.2.2.2.2.2,
        ← List.cons_append, ← hshape]
      have hv := parseValue_byte b (sepElems (t.map byteJson) ++ ']' :: rest)
        (sepElems_bytes_noDigitHead _ _)
      simp only [hv, Option.some_bind]
      rw [parseElemsLoop_bytes t [byteJson b] rest]
      simp

theorem parseValue_arrBytes (bs : List Nat) (rest : List Char) :
    pOut (parseValue
        (stringifyJson (Json.arr (bs.map byteJson)) ++ rest))
      = some (Json.arr (bs.map byteJson), rest) := by
  rw [show stringifyJson (Json.arr (bs.map byteJson))
      = '[' :: stringifyElems (bs.map byteJson) ++ [']'] from rfl]
  simp only [List.cons_append, List.append_assoc, List.singleton_append]
  rw [pOut_parseValue, skipWs_not_ws _ (by decide), pOut_valueCore_arr]
  rw [List.append_assoc, List.singleton_append]
  rw [parseElemsFirst_bytes bs rest]
  rfl

theorem insertMember_notin (acc : List (JsStr × Json)) (k : JsStr) (v : Json)
    (h : ∀ e ∈ acc, e.1 ≠ k) : insertMember acc k v = acc ++ [(k, v)] := by
  induction acc with
  | nil => rfl
  | cons a rest ih =>
      rcases a with ⟨k2, v2⟩
      have hne : k2 ≠ k := h (k2, v2) (by simp)
      simp only [insertMember, if_neg hne, List.cons_append]
      rw [ih (fun e he => h e (by simp [he]))]

/-- The member list `JSON.stringify` walks for a snapshot. -/
def snapMembers (S : Snapshot) : List (JsStr × Json) :=
  S.map (fun e => (e.1, Json.arr (e.2.map byteJson)))

theorem snapMembers_keys (S : Snapshot) :
    (snapMembers S).map Prod.fst = S.map Prod.fst := by
  simp [snapMembers]

theorem sepMembers_cons_append (p : JsStr) (V : Json)
    (M : List (JsStr × Json)) (X : List Char) :
    sepMembers ((p, V) :: M) ++ X
      = ',' :: '"' :: ((p.map escapeChar).join ++ '"' :: ':'
          :: (stringifyJson V ++ (sepMembers M ++ X))) := by
  simp [sepMembers, quoteStr]

theorem stringifyMembers_cons_append (p : JsStr) (V : Json)
    (M : List (JsStr × Json)) (X : List Char) :
    stringifyMembers ((p, V) :: M) ++ X
      = '"' :: ((p.map escapeChar).join ++ '"' :: ':'
          :: (stringifyJson V ++ (sepMembers M ++ X))) := by
  rw [stringifyMembers_eq]
  simp [quoteStr]

theorem parseMembersLoop_snap (T : Snapshot) :
    ∀ (acc : List (JsStr × Json)) (rest : List Char),
    (∀ e ∈ snapMembers T, ∀ a ∈ acc, a.1 ≠ e.1) →
    (T.map Prod.fst).Nodup →
    pOut (parseMembersLoop acc (sepMembers (snapMembers T) ++ '}' :: rest))
      = some (acc ++ snapMembers T, rest) := by
  induction T with
  | nil =>
      intro acc rest _ _
      rw [show snapMembers [] = [] from rfl, show sepMembers [] = [] from rfl,
        List.nil_append]
      rw [pOut_parseMembersLoop, skipWs_not_ws _ (by decide),
        pOut_membersLoopCore_close]
      simp
  | cons e T ih =>
      intro acc rest hk hnd
      rcases e with ⟨p, bs⟩
      rw [show snapMembers ((p, bs) :: T)
          = (p, Json.arr (bs.map byteJson)) :: snapMembers T from rfl]
      rw [sepMembers_cons_append]
      rw [pOut_parseMembersLoop, skipWs_not_ws _ (by decide),
        pOut_membersLoopCore_comma]
      rw [pOut_parseMembersKey, skipWs_not_ws _ (by decide),
        pOut_membersKeyCore_quote]
      rw [parseStringBody_quoted p
        (':' :: (stringifyJson (Json.arr (bs.map byteJson))
          ++ (sepMembers (snapMembers T) ++ '}' :: rest)))]
      simp only [Option.some_bind]
      rw [pOut_parseMemberTail, skipWs_not_ws _ (by decide),
        pOut_memberTailCore_colon]
      rw [parseValue_arrBytes bs (sepMembers (snapMembers T) ++ '}' :: rest)]
      simp only [Option.some_bind]
      have hkhead : ∀ a ∈ acc, a.1 ≠ p :=
        fun a ha => hk (p, Json.arr (bs.map byteJson)) (by simp [snapMembers]) a ha
      rw [insertMember_notin acc p _ hkhead]
      have hndc : p ∉ T.map Prod.fst ∧ (T.map Prod.fst).Nodup := by
        have : ((p, bs) :: T).map Prod.fst = p :: T.map Prod.fst := by simp
        rw [this] at hnd
        exact ⟨(List.nodup_cons.1 hnd).1, (List.nodup_cons.1 hnd).2⟩
      have hmemT : ∀ e ∈ snapMembers T,
          ∀ a ∈ acc ++ [(p, Json.arr (bs.map byteJson))], a.1 ≠ e.1 := by
        intro e he a ha
        rcases List.mem_append.1 ha with h1 | h1
        · exact hk e (List.mem_cons_of_mem _ he) a h1
        · simp at h1
          subst h1
          intro hcon
          apply hndc.1
          have hkeys : e.1 ∈ (snapMembers T).map Prod.fst :=
            List.mem_map_of_mem Prod.fst he
          rw [snapMembers_keys] at hkeys
          rw [← hcon] at hkeys
          exact hkeys
      rw [ih _ rest hmemT hndc.2]
      simp

theorem parseMembersFirst_snap (S : Snapshot) (rest : List Char)
    (hnd : (S.map Prod.fst).Nodup) :
    pOut (parseMembersFirst (stringifyMembers (snapMembers S) ++ '}' :: rest))
      = some (snapMembers S, rest) := by
  cases S with
  | nil =>
      rw [show snapMembers [] = [] from rfl, show stringifyMembers [] = [] from rfl,
        List.nil_append]
      rw [pOut_parseMembersFirst, skipWs_not_ws _ (by decide),
        pOut_membersFirstCore_close]
  | cons e T =>
      rcases e with ⟨p, bs⟩
      rw [show snapMembers ((p, bs) :: T)
          = (p, Json.arr (bs.map byteJson)) :: snapMembers T from rfl]
      rw [stringifyMembers_cons_append]
      rw [pOut_parseMembersFirst, skipWs_not_ws _ (by decide),
        pOut_membersFirstCore_key]
      rw [parseStringBody_quoted p
        (':' :: (stringifyJson (Json.arr (bs.map byteJson))
          ++ (sepMembers (snapMembers T) ++ '}' :: rest)))]
      simp only [Option.some_bind]
      rw [pOut_parseMemberTail, skipWs_not_ws _ (by decide),
        pOut_memberTailCore_colon]
      rw [parseValue_arrBytes bs (sepMembers (snapMembers T) ++ '}' :: rest)]
      simp only [Option.some_bind]
      rw [show insertMember [] p (Json.arr (bs.map byteJson))
          = [(p, Json.arr (bs.map byteJson))] from rfl]
      have hndc : p ∉ T.map Prod.fst ∧ (T.map Prod.fst).Nodup := by
        have : ((p, bs) :: T).map Prod.fst = p :: T.map Prod.fst := by simp
        rw [this] at hnd
        exact ⟨(List.nodup_cons.1 hnd).1, (List.nodup_cons.1 hnd).2⟩
      have hmemT : ∀ e ∈ snapMembers T,
          ∀ a ∈ [(p, Json.arr (bs.map byteJson))], a.1 ≠ e.1 := by
        intro e he a ha
        simp at ha
        subst ha
        intro hcon
        apply hndc.1
        have hkeys : e.1 ∈ (snapMembers T).map Prod.fst :=
          List.mem_map_of_mem Prod.fst he
        rw [snapMembers_keys] at hkeys
        rw [← hcon] at hkeys
        exact hkeys
      rw [parseMembersLoop_snap T _ rest hmemT hndc.2]
      simp

theorem parseValue_snapshot (S : Snapshot) (rest : List Char)
    (hnd : (S.map Prod.fst).Nodup) :
    pOut (parseValue (stringifyJson (jsonOfSnapshot S) ++ rest))
      = some (jsonOfSnapshot S, rest) := by
  have hobj : jsonOfSnapshot S = Json.obj (snapMembers S) := rfl
  rw [hobj]
  rw [show stringifyJson (Json.obj (snapMembers S))
      = '{' :: stringifyMembers (snapMembers S) ++ ['}'] from rfl]
  simp only [List.cons_append]
  rw [pOut_parseValue, skipWs_not_ws _ (by decide), pOut_valueCore_obj]
  rw [List.append_assoc, List.singleton_append]
  rw [parseMembersFirst_snap S rest hnd]
  rfl

theorem jsonParse_stringify_snapshot (S : Snapshot)
    (hnd : (S.map Prod.fst).Nodup) :
    jsonParse (stringifyJson (jsonOfSnapshot S)) = some (jsonOfSnapshot S) := by
  have h := parseValue_snapshot S [] hnd
  rw [List.append_nil] at h
  obtain ⟨res, hres, hval, hrest⟩ := pOut_eq_some h
  unfold jsonParse
  rw [hres]
  simp only []
  rw [hrest]
  simp [hval, skipWs]

/-! ### Latin-1 bounds of the encoded text -/

theorem hexDigitChar_latin1 (d : Nat) : (hexDigitChar d).toNat ≤ 255 := by
  unfold hexDigitChar
  split <;> decide

theorem escapeChar_latin1 {c : Char} (h : c.toNat ≤ 255) :
    ∀ x ∈ escapeChar c, x.toNat ≤ 255 := by
  intro x hx
  unfold escapeChar at hx
  split_ifs at hx with h1 h2 h3 h4 h5 h6 h7 h8 <;>
    simp only [List.mem_cons, List.not_mem_nil, or_false] at hx
  · rcases hx with rfl | rfl <;> decide
  · rcases hx with rfl | rfl <;> decide
  · rcases hx with rfl | rfl <;> decide
  · rcases hx with rfl | rfl <;> decide
  · rcases hx with rfl | rfl <;> decide
  · rcases hx with rfl | rfl <;> decide
  · rcases hx with rfl | rfl <;> decide
  · rcases hx with rfl | rfl | rfl | rfl | rfl | rfl
    · decide
    · decide
    · decide
    · decide
    · exact hexDigitChar_latin1 _
    · exact hexDigitChar_latin1 _
  · subst hx; exact h

theorem quoteStr_latin1 {k : JsStr} (h : ∀ c ∈ k, c.toNat ≤ 255) :
    ∀ x ∈ quoteStr k, x.toNat ≤ 255 := by
  intro x hx
  unfold quoteStr at hx
  rcases List.mem_cons.1 hx with rfl | hx2
  · decide
  · rcases List.mem_append.1 hx2 with h3 | h3
    · rcases List.mem_join.1 h3 with ⟨l, hl, hxl⟩
      rcases List.mem_map.1 hl with ⟨c, hc, rfl⟩
      exact escapeChar_latin1 (h c hc) x hxl
    · simp at h3; subst h3; decide

theorem stringify_byte_latin1 (b : Nat) :
    ∀ x ∈ stringifyJson (byteJson b), x.toNat ≤ 255 := by
  intro x hx
  rw [stringify_byte] at hx
  have := natToDigits_digits b x hx
  omega

theorem sepElems_bytes_latin1 (bs : List Nat) :
    ∀ x ∈ sepElems (bs.map byteJson), x.toNat ≤ 255 := by
  induction bs with
  | nil => simp [sepElems]
  | cons b t ih =>
      intro x hx
      simp only [List.map_cons, sepElems, List.cons_append, List.mem_cons] at hx
      rcases hx with rfl | hx2
      · decide
      · rcases List.mem_append.1 hx2 with h3 | h3
        · exact stringify_byte_latin1 b x h3
        · exact ih x h3

theorem stringify_arrBytes_latin1 (bs : List Nat) :
    ∀ x ∈ stringifyJson (Json.arr (bs.map byteJson)), x.toNat ≤ 255 := by
  intro x hx
  rw [show stringifyJson (Json.arr (bs.map byteJson))
      = '[' :: stringifyElems (bs.map byteJson) ++ [']'] from rfl] at hx
  rcases List.mem_cons.1 hx with rfl | hx2
  · decide
  · rcases List.mem_append.1 hx2 with h3 | h3
    · cases bs with
      | nil => simp [show stringifyElems [] = [] from rfl] at h3
      | cons b t =>
          simp only [List.map_cons] at h3
          rw [stringifyElems_eq] at h3
          rcases List.mem_append.1 h3 with h4 | h4
          · exact stringify_byte_latin1 b x h4
          · exact sepElems_bytes_latin1 t x h4
    · simp at h3; subst h3; decide

theorem sepMembers_snap_latin1 (S : Snapshot)
    (h : ∀ e ∈ S, ∀ c ∈ e.1, c.toNat ≤ 255) :
    ∀ x ∈ sepMembers (snapMembers S), x.toNat ≤ 255 := by
  induction S with
  | nil => simp [snapMembers, sepMembers]
  | cons e T ih =>
      rcases e with ⟨p, bs⟩
      intro x hx
      rw [show snapMembers ((p, bs) :: T)
          = (p, Json.arr (bs.map byteJson)) :: snapMembers T from rfl] at hx
      simp only [sepMembers, List.cons_append, List.mem_cons] at hx
      rcases hx with rfl | hx2
      · decide
      · rcases List.mem_append.1 hx2 with h3 | h3
        · rcases List.mem_append.1 h3 with h4 | h4
          · exact quoteStr_latin1 (h (p, bs) (by simp)) x h4
          · rcases List.mem_cons.1 h4 with rfl | h5
            · decide
            · exact stringify_arrBytes_latin1 bs x h5
        · exact ih (fun e2 he2 => h e2 (by simp [he2])) x h3

theorem stringify_snapshot_latin1 (S : Snapshot)
    (h : ∀ e ∈ S, ∀ c ∈ e.1, c.toNat ≤ 255) :
    ∀ x ∈ stringifyJson (jsonOfSnapshot S), x.toNat ≤ 255 := by
  intro x hx
  rw [show stringifyJson (jsonOfSnapshot S)
      = '{' :: stringifyMembers (snapMembers S) ++ ['}'] from rfl] at hx
  rcases List.mem_cons.1 hx with rfl | hx2
  · decide
  · rcases List.mem_append.1 hx2 with h3 | h3
    · cases S with
      | nil => simp [snapMembers, show stringifyMembers [] = [] from rfl] at h3
      | cons e T =>
          rcases e with ⟨p, bs⟩
          rw [show snapMembers ((p, bs) :: T)
              = (p, Json.arr (bs.map byteJson)) :: snapMembers T from rfl,
            stringifyMembers_eq] at h3
          rcases List.mem_append.1 h3 with h4 | h4
          · rcases List.mem_append.1 h4 with h5 | h5
            · exact quoteStr_latin1 (h (p, bs) (by simp)) x h5
            · rcases List.mem_cons.1 h5 with rfl | h6
              · decide
              · exact stringify_arrBytes_latin1 bs x h6
          · exact sepMembers_snap_latin1 T
              (fun e2 he2 => h e2 (by simp [he2])) x h4
    · simp at h3; subst h3; decide

theorem strToBytes_total (s : JsStr) (h : ∀ c ∈ s, c.toNat ≤ 255) :
    ∃ bs, strToBytes s = some bs := by
  induction s with
  | nil => exact ⟨[], rfl⟩
  | cons c rest ih =>
      obtain ⟨bs, hbs⟩ := ih (fun c2 hc2 => h c2 (by simp [hc2]))
      refine ⟨c.toNat :: bs, ?_⟩
      simp [strToBytes, h c (by simp), hbs]

theorem serialize_total (S : Snapshot)
    (h : ∀ e ∈ S, ∀ c ∈ e.1, c.toNat ≤ 255) :
    ∃ enc, serialize S = some enc := by
  obtain ⟨bs, hbs⟩ := strToBytes_total _ (stringify_snapshot_latin1 S h)
  exact ⟨_, by unfold serialize btoa; rw [hbs]; rfl⟩

/-- The codec round trip, independent of the claim packaging. -/
theorem deserialize_serialize (S : Snapshot)
    (hnd : (S.map Prod.fst).Nodup)
    (hlat : ∀ e ∈ S, ∀ c ∈ e.1, c.toNat ≤ 255) :
    ∃ enc, serialize S = some enc ∧ deserialize enc = jsonOfSnapshot S := by
  obtain ⟨enc, henc⟩ := serialize_total S hlat
  refine ⟨enc, henc, ?_⟩
  unfold serialize at henc
  have hback := atob_btoa henc
  unfold deserialize
  rw [hback]
  simp only []
  rw [jsonParse_stringify_snapshot S hnd]

theorem byteJson_injective : Function.Injective byteJson := by
  intro a b h
  unfold byteJson at h
  injection h with h1
  omega

theorem jsonOfSnapshot_injective : Function.Injective jsonOfSnapshot := by
  intro S1 S2 h
  unfold jsonOfSnapshot at h
  injection h with h1
  have hinj : Function.Injective
      (fun e : JsStr × List Nat => (e.1, Json.arr (e.2.map byteJson))) := by
    intro e1 e2 he
    simp only [Prod.mk.injEq] at he
    rcases he with ⟨hk, hv⟩
    injection hv with hv1
    exact Prod.ext hk (List.map_injective_iff.2 byteJson_injective hv1)
  exact List.map_injective_iff.2 hinj h1

/-! ### Snapshot well-formedness (spec data model §3) -/

/-- Split a string at `/` characters. -/
def splitSlash : List Char → List (List Char)
  | [] => [[]]
  | c :: rest =>
      if c = '/' then [] :: splitSlash rest
      else
        match splitSlash rest with
        | [] => [[c]]
        | s :: ss => (c :: s) :: ss

/-- Absolute normalized path: leading `/`, nonempty segments, no `.` or
`..` segments, no trailing slash. -/
def isNormalizedPath (p : JsStr) : Bool :=
  match splitSlash p with
  | [] :: segs =>
      !segs.isEmpty &&
        segs.all (fun s => !s.isEmpty && s ≠ ['.'] && s ≠ ['.', '.'])
  | _ => false

/-- `SKIP_PATHS` (src/save-manager.js:13). -/
def SKIP_PATHS : List JsStr := ["/Data.rsdk".data]

/-- The exclusion test of `collectSaveFiles` (src/save-manager.js:28):
the path equals a skip path or begins with it plus `/`. -/
def isSkippedPath (p : JsStr) : Bool :=
  SKIP_PATHS.any (fun sp => p == sp || (sp ++ ['/']).isPrefixOf p)

/-- Snapshot well-formedness from the spec's data model: unique keys,
absolute normalized paths, no key under an excluded prefix, byte
values below 256. -/
def wfSnapshot (S : Snapshot) : Prop :=
  (S.map Prod.fst).Nodup ∧
    ∀ e ∈ S, isNormalizedPath e.1 = true ∧ isSkippedPath e.1 = false ∧
      ∀ b ∈ e.2, b < 256

instance wfSnapshot_decidable (S : Snapshot) : Decidable (wfSnapshot S) := by
  unfold wfSnapshot
  infer_instance

/-- Evaluation helper: parsing the bare JSON text `5`. -/
theorem jsonParse_five : jsonParse ['5'] = some (Json.num 5) := by
  have h1 := pOut_parseValue ['5']
  rw [show skipWs ['5'] = ['5'] from by decide] at h1
  rw [pOut_valueCore_num '5' [] (by decide) (by decide)] at h1
  rw [show parseNumber ['5'] = some ((5 : Int), []) from by decide] at h1
  simp only [Option.map_some'] at h1
  obtain ⟨res, hres, hval, hrest⟩ := pOut_eq_some h1
  unfold jsonParse
  rw [hres]
  simp only []
  rw [hrest]
  simp [hval, skipWs]

/-- **C1** (counterexample): the snapshot `{"/Ā": []}` satisfies the
spec's Snapshot data model (absolute normalized path, not under an
excluded prefix, unique keys, byte values), yet `serialize` throws —
`btoa` rejects the character U+0100 — so `deserialize(serialize(S))`
cannot reproduce `S`; the round trip fails as stated. -/
theorem c1_roundtrip_counterexample :
    wfSnapshot [(['/', 'Ā'], [])] ∧ serialize [(['/', 'Ā'], [])] = none := by
  constructor
  · decide
  · decide

/-- **C1** (amended): for every well-formed Snapshot whose path
characters are Latin-1 (code points ≤ 255), `serialize` succeeds and
`deserialize` of the result is exactly the snapshot's mapping — the
same keys with the same byte sequences (the decoding determines `S`
uniquely). -/
theorem c1_roundtrip (S : Snapshot) (hwf : wfSnapshot S)
    (hlat : ∀ e ∈ S, ∀ c ∈ e.1, c.toNat ≤ 255) :
    ∃ enc, serialize S = some enc ∧ deserialize enc = jsonOfSnapshot S ∧
      ∀ S2 : Snapshot, jsonOfSnapshot S2 = jsonOfSnapshot S → S2 = S := by
  obtain ⟨enc, h1, h2⟩ := deserialize_serialize S hwf.1 hlat
  exact ⟨enc, h1, h2, fun S2 h => jsonOfSnapshot_injective h⟩

/-- Witness for C1 at the snapshot `{"/a": [9]}`. -/
theorem c1_roundtrip_witness :
    ∃ enc, serialize [("/a".data, [9])] = some enc ∧
      deserialize enc = jsonOfSnapshot [("/a".data, [9])] ∧
      ∀ S2 : Snapshot,
        jsonOfSnapshot S2 = jsonOfSnapshot [("/a".data, [9])] →
          S2 = [("/a".data, [9])] :=
  c1_roundtrip [("/a".data, [9])] (by decide) (by decide)

/-- **C2** (counterexample): decoding `"NQ=="` — the framing of the
JSON text `5` — returns the parsed number `5`, a non-object value,
rather than a MalformedSnapshot (`null`) outcome: `deserialize`
performs no object validation. -/
theorem c2_decode_counterexample :
    deserialize "NQ==".data = Json.num 5 ∧ isPlainObj (Json.num 5) = false := by
  constructor
  · unfold deserialize
    rw [show atob "NQ==".data = some ['5'] from by decide]
    simp only []
    rw [jsonParse_five]
  · rfl

/-- **C2** (amended): `deserialize` yields `null` (the MalformedSnapshot
outcome) exactly on bad framing or invalid JSON, and otherwise returns
the parsed value as-is with no plain-object validation — in
particular a bare number is returned, not rejected. -/
theorem c2_decode_behavior :
    (∀ s, atob s = none → deserialize s = Json.null) ∧
    (∀ s t, atob s = some t → jsonParse t = none → deserialize s = Json.null) ∧
    (∀ s t v, atob s = some t → jsonParse t = some v → deserialize s = v) ∧
    (deserialize "NQ==".data = Json.num 5 ∧ isPlainObj (Json.num 5) = false) := by
  refine ⟨?_, ?_, ?_, ?_, rfl⟩
  · intro s h
    unfold deserialize
    rw [h]
  · intro s t h1 h2
    unfold deserialize
    rw [h1]
    simp only []
    rw [h2]
  · intro s t v h1 h2
    unfold deserialize
    rw [h1]
    simp only []
    rw [h2]
  · unfold deserialize
    rw [show atob "NQ==".data = some ['5'] from by decide]
    simp only []
    rw [jsonParse_five]

/-- Witness for C2 at the un-decodable input `"####"`. -/
theorem c2_decode_behavior_witness :
    atob "####".data = none ∧ deserialize "####".data = Json.null :=
  ⟨by decide, c2_decode_behavior.1 "####".data (by decide)⟩

/-! ## Storage backends (src/save-manager.js:89-176)

The continuation-passing API (`onSuccess`/`onError`) is rendered as
functions returning an explicit outcome together with the updated
browser storage state. -/

def STORAGE_KEY : JsStr := "sonic1_wasm_save".data

def IDB_STORE : JsStr := "savedata".data

def IDB_VERSION : Nat := 2

/-- The errors the modelled paths can produce. -/
inductive JsError where
  | objectStoreNotFound
  | capacityExceeded
  | invalidCharacter
  | invalidSaveFile
deriving DecidableEq

inductive SaveResult where
  | ok
  | err (e : JsError)
deriving DecidableEq

inductive LoadResult where
  | ok (data : Json)
  | err (e : JsError)

/-- State of the IndexedDB database `sonic1_wasm_saves`: its stored
schema version, object store names, and the single record the code
keeps (the `savedata` store at `STORAGE_KEY`).
Modelled from the spec: IndexedDB is a host facility (§4.4 Primary
backend); opening succeeds, `onupgradeneeded` fires when the stored
version is below the requested one, and transactions commit. -/
structure IdbState where
  version : Nat
  stores : List JsStr
  record : Option JsStr
deriving DecidableEq

/-- The browser storage environment: `indexedDB` (when the host
provides it) and the `localStorage` value at `STORAGE_KEY`. -/
structure Env where
  idb : Option IdbState
  localStorage : Option JsStr
deriving DecidableEq

/-- `idb.open(IDB_NAME, IDB_VERSION)` with the `onupgradeneeded`
handler of src/save-manager.js:96-101: if the stored version is below
`IDB_VERSION`, the handler creates the `savedata` store when
missing. -/
def openDb (d : IdbState) : IdbState :=
  if d.version < IDB_VERSION then
    { version := IDB_VERSION,
      stores := if IDB_STORE ∈ d.stores then d.stores else d.stores ++ [IDB_STORE],
      record := d.record }
  else d

/-- Opening from `loadFromIndexedDB` (src/save-manager.js:129), which
installs no `onupgradeneeded` handler: a version bump happens but no
store is created. -/
def openDbNoUpgrade (d : IdbState) : IdbState :=
  { d with version := max d.version IDB_VERSION }

/-- `saveToLocalStorage` (src/save-manager.js:155-167): reject when the
encoded length exceeds `4 * 1024 * 1024`, otherwise store the string.
A thrown `serialize` is caught by the surrounding `try`. -/
def saveToLocalStorage (env : Env) (files : Snapshot) : Env × SaveResult :=
  match serialize files with
  | none => (env, .err .invalidCharacter)
  | some str =>
      if 4 * 1024 * 1024 < str.length then (env, .err .capacityExceeded)
      else ({ env with localStorage := some str }, .ok)

/-- `loadFromLocalStorage` (src/save-manager.js:169-176):
`onSuccess(str ? deserialize(str) : null)`. -/
def loadFromLocalStorage (env : Env) : LoadResult :=
  match env.localStorage with
  | none => .ok .null
  | some str => .ok (if str = [] then .null else deserialize str)

/-- `saveToIndexedDB` (src/save-manager.js:89-121): fall back to
localStorage when `indexedDB` is absent; otherwise open, check the
object store, and `put` the serialized snapshot. -/
def saveToIndexedDB (env : Env) (files : Snapshot) : Env × SaveResult :=
  match env.idb with
  | none => saveToLocalStorage env files
  | some d =>
      let d2 := openDb d
      if IDB_STORE ∈ d2.stores then
        match serialize files with
        | none => ({ env with idb := some d2 }, .err .invalidCharacter)
        | some str =>
            ({ env with idb := some { d2 with record := some str } }, .ok)
      else ({ env with idb := some d2 }, .err .objectStoreNotFound)

/-- `loadFromIndexedDB` (src/save-manager.js:123-153): fall back when
`indexedDB` is absent; a missing object store or missing record yields
`onSuccess(null)` (the "absent" outcome), otherwise the record is
decoded (`getReq.result ? deserialize(...) : null`). -/
def loadFromIndexedDB (env : Env) : Env × LoadResult :=
  match env.idb with
  | none => (env, loadFromLocalStorage env)
  | some d =>
      let d2 := openDbNoUpgrade d
      if IDB_STORE ∈ d2.stores then
        match d2.record with
        | none => ({ env with idb := some d2 }, .ok .null)
        | some str =>
            ({ env with idb := some d2 },
              .ok (if str = [] then .null else deserialize str))
      else ({ env with idb := some d2 }, .ok .null)

theorem serialize_ne_nil {S : Snapshot} {str : JsStr}
    (h : serialize S = some str) : str ≠ [] := by
  unfold serialize btoa at h
  rcases Option.map_eq_some'.1 h with ⟨bs, hbs, rfl⟩
  have hsh : stringifyJson (jsonOfSnapshot S)
      = '{' :: stringifyMembers (snapMembers S) ++ ['}'] := rfl
  rw [hsh] at hbs
  simp only [strToBytes] at hbs
  split at hbs
  · rcases Option.map_eq_some'.1 hbs with ⟨bs2, _, rfl⟩
    cases bs2 with
    | nil => simp [b64core, b64padding]
    | cons b2 t2 =>
        cases t2 with
        | nil => simp [b64core]
        | cons b3 t3 => cases t3 <;> simp [b64core]
  · exact absurd hbs (by simp)

/-- **C3**: the fallback-store capacity law.  With the encoded payload
`str`: a length above the 4,194,304-character ceiling yields the
CapacityExceeded error and the entire prior environment (in
particular the stored value) is unchanged; a length at or below the
ceiling stores `str`, succeeds, and a subsequent load returns exactly
the snapshot's mapping. -/
theorem c3_capacity_law (S : Snapshot) (env : Env)
    (hnd : (S.map Prod.fst).Nodup)
    (hlat : ∀ e ∈ S, ∀ c ∈ e.1, c.toNat ≤ 255) :
    ∃ str, serialize S = some str ∧
      (4 * 1024 * 1024 < str.length →
        saveToLocalStorage env S = (env, .err .capacityExceeded)) ∧
      (str.length ≤ 4 * 1024 * 1024 →
        saveToLocalStorage env S = ({ env with localStorage := some str }, .ok) ∧
        loadFromLocalStorage (saveToLocalStorage env S).1
          = .ok (jsonOfSnapshot S)) := by
  obtain ⟨str, hser, hdec⟩ := deserialize_serialize S hnd hlat
  refine ⟨str, hser, ?_, ?_⟩
  · intro hlen
    unfold saveToLocalStorage
    rw [hser]
    simp only [if_pos hlen]
  · intro hlen
    have hcase : ¬(4 * 1024 * 1024 < str.length) := by omega
    refine ⟨?_, ?_⟩
    · unfold saveToLocalStorage
      rw [hser]
      simp only [if_neg hcase]
    · unfold saveToLocalStorage
      rw [hser]
      simp only [if_neg hcase]
      unfold loadFromLocalStorage
      simp only []
      rw [if_neg (serialize_ne_nil hser), hdec]

/-- Witness for C3 at the snapshot `{"/a": [9]}` on an empty store. -/
theorem c3_capacity_law_witness :
    ∃ str, serialize [("/a".data, [9])] = some str ∧
      (4 * 1024 * 1024 < str.length →
        saveToLocalStorage ⟨none, none⟩ [("/a".data, [9])]
          = (⟨none, none⟩, .err .capacityExceeded)) ∧
      (str.length ≤ 4 * 1024 * 1024 →
        saveToLocalStorage ⟨none, none⟩ [("/a".data, [9])]
          = (⟨none, some str⟩, .ok) ∧
        loadFromLocalStorage
            (saveToLocalStorage ⟨none, none⟩ [("/a".data, [9])]).1
          = .ok (jsonOfSnapshot [("/a".data, [9])])) :=
  c3_capacity_law [("/a".data, [9])] ⟨none, none⟩ (by decide) (by decide)

/-- **C4**: fallback substitution and the per-call availability
decision.  With `indexedDB` absent, save and load are exactly the
fallback-store calls (identical results, no extra error); and the
decision is taken fresh: a subsequent call that finds `indexedDB`
available writes to IndexedDB and leaves the localStorage value the
first call wrote untouched. -/
theorem c4_fallback_substitution (ls : Option JsStr) (S S2 : Snapshot)
    (d : IdbState)
    (hlat : ∀ e ∈ S, ∀ c ∈ e.1, c.toNat ≤ 255)
    (hlat2 : ∀ e ∈ S2, ∀ c ∈ e.1, c.toNat ≤ 255)
    (hd : IDB_STORE ∈ (openDb d).stores) :
    saveToIndexedDB ⟨none, ls⟩ S = saveToLocalStorage ⟨none, ls⟩ S ∧
    loadFromIndexedDB ⟨none, ls⟩ = (⟨none, ls⟩, loadFromLocalStorage ⟨none, ls⟩) ∧
    ∃ str str2, serialize S = some str ∧ serialize S2 = some str2 ∧
      (str.length ≤ 4 * 1024 * 1024 →
        (saveToIndexedDB ⟨none, ls⟩ S).1.localStorage = some str ∧
        (saveToIndexedDB ⟨some d, some str⟩ S2).2 = .ok ∧
        (saveToIndexedDB ⟨some d, some str⟩ S2).1.localStorage = some str ∧
        (saveToIndexedDB ⟨some d, some str⟩ S2).1.idb
          = some { openDb d with record := some str2 }) := by
  obtain ⟨str, h1⟩ := serialize_total S hlat
  obtain ⟨str2, h2⟩ := serialize_total S2 hlat2
  refine ⟨rfl, rfl, str, str2, h1, h2, ?_⟩
  intro hlen
  refine ⟨?_, ?_, ?_, ?_⟩
  · unfold saveToIndexedDB saveToLocalStorage
    rw [h1]
    simp only []
    rw [if_neg (by omega)]
  · unfold saveToIndexedDB
    simp only [if_pos hd]
    rw [h2]
  · unfold saveToIndexedDB
    simp only [if_pos hd]
    rw [h2]
  · unfold saveToIndexedDB
    simp only [if_pos hd]
    rw [h2]

/-- Witness for C4: save `{"/a": [9]}` while `indexedDB` is absent,
then save `{"/b": [1]}` against an available database. -/
theorem c4_fallback_substitution_witness :
    saveToIndexedDB ⟨none, none⟩ [("/a".data, [9])]
        = saveToLocalStorage ⟨none, none⟩ [("/a".data, [9])] ∧
    loadFromIndexedDB ⟨none, none⟩
        = (⟨none, none⟩, loadFromLocalStorage ⟨none, none⟩) ∧
    ∃ str str2, serialize [("/a".data, [9])] = some str ∧
      serialize [("/b".data, [1])] = some str2 ∧
      (str.length ≤ 4 * 1024 * 1024 →
        (saveToIndexedDB ⟨none, none⟩ [("/a".data, [9])]).1.localStorage
            = some str ∧
        (saveToIndexedDB ⟨some ⟨2, ["savedata".data], none⟩, some str⟩
            [("/b".data, [1])]).2 = .ok ∧
        (saveToIndexedDB ⟨some ⟨2, ["savedata".data], none⟩, some str⟩
            [("/b".data, [1])]).1.localStorage = some str ∧
        (saveToIndexedDB ⟨some ⟨2, ["savedata".data], none⟩, some str⟩
            [("/b".data, [1])]).1.idb
          = some { openDb ⟨2, ["savedata".data], none⟩ with
              record := some str2 }) :=
  c4_fallback_substitution none [("/a".data, [9])] [("/b".data, [1])]
    ⟨2, ["savedata".data], none⟩ (by decide) (by decide) (by decide)

/-- **C8**: when the database opens but the `savedata` object store is
absent, `loadFromIndexedDB` completes with the absent result
(`onSuccess(null)`, not an error) and `saveToIndexedDB` reports the
`Object store not found` error; neither stores a record. -/
theorem c8_absent_collection (d : IdbState) (ls : Option JsStr) (S : Snapshot)
    (h : IDB_STORE ∉ (openDb d).stores) :
    loadFromIndexedDB ⟨some d, ls⟩
        = (⟨some (openDbNoUpgrade d), ls⟩, .ok .null) ∧
    saveToIndexedDB ⟨some d, ls⟩ S
        = (⟨some (openDb d), ls⟩, .err .objectStoreNotFound) := by
  have hsub : IDB_STORE ∈ d.stores → IDB_STORE ∈ (openDb d).stores := by
    intro hc
    unfold openDb
    split
    · exact hc
    · exact hc
  have hload : IDB_STORE ∉ (openDbNoUpgrade d).stores := by
    intro hc
    exact h (hsub hc)
  constructor
  · unfold loadFromIndexedDB
    simp only [if_neg hload]
  · unfold saveToIndexedDB
    simp only [if_neg h]

/-- Witness for C8 at a version-2 database with no object stores. -/
theorem c8_absent_collection_witness :
    loadFromIndexedDB ⟨some ⟨2, [], none⟩, none⟩
        = (⟨some (openDbNoUpgrade ⟨2, [], none⟩), none⟩, .ok .null) ∧
    saveToIndexedDB ⟨some ⟨2, [], none⟩, none⟩ [("/a".data, [9])]
        = (⟨some (openDb ⟨2, [], none⟩), none⟩, .err .objectStoreNotFound) :=
  c8_absent_collection ⟨2, [], none⟩ none [("/a".data, [9])] (by decide)

/-! ## The Emscripten virtual filesystem

`collectSaveFiles` and `restoreSaveFiles` run against the Emscripten
`FS` API (`readdir`/`stat`/`open`/`read`, `mkdir`/`analyzePath`/
`unlink`/`createDataFile`).  That API is a host facility, not part of
this repository, so it is modelled from the spec's description of it:
an in-memory tree of directories and data files, a directory mapping
names to child nodes, a data file carrying its bytes and its
read/write/execute permission flags.  A directory's mapping is kept
as an association list sorted strictly by name — the canonical form
of a finite mapping.  `mkdir` on an existing node fails with `EEXIST`
(errno 20), resolution through a non-directory fails, `unlink`
removes only files, and `createDataFile` creates a fresh file under
an existing directory, with the three permission flags the caller
passes. -/

inductive FsNode where
  | file (data : List Nat) (r w x : Bool)
  | dir (children : List (JsStr × FsNode))

/-- Strict lexicographic order on names, by code point. -/
def ltStr : JsStr → JsStr → Bool
  | [], [] => false
  | [], _ :: _ => true
  | _ :: _, [] => false
  | a :: as, b :: bs =>
      if a.toNat < b.toNat then true
      else if b.toNat < a.toNat then false
      else ltStr as bs

def lookupChild (name : JsStr) : List (JsStr × FsNode) → Option FsNode
  | [] => none
  | (k, v) :: rest => if name = k then some v else lookupChild name rest

def removeChild (name : JsStr) : List (JsStr × FsNode) → List (JsStr × FsNode)
  | [] => []
  | (k, v) :: rest => if name = k then rest else (k, v) :: removeChild name rest

/-- Ordered insert-or-replace, keeping the list sorted. -/
def insertChild (name : JsStr) (n : FsNode) :
    List (JsStr × FsNode) → List (JsStr × FsNode)
  | [] => [(name, n)]
  | (k, v) :: rest =>
      if ltStr name k then (name, n) :: (k, v) :: rest
      else if name = k then (name, n) :: rest
      else (k, v) :: insertChild name n rest

/-- Keys strictly ascending. -/
def sortedKeys : List (JsStr × FsNode) → Bool
  | [] => true
  | [_] => true
  | (k1, v1) :: (k2, v2) :: rest =>
      ltStr k1 k2 && sortedKeys ((k2, v2) :: rest)

mutual

/-- Well-formed tree: every directory's children sorted by name. -/
def wfFs : FsNode → Bool
  | .file _ _ _ _ => true
  | .dir ch => sortedKeys ch && wfChildren ch
termination_by fs => sizeOf fs

def wfChildren : List (JsStr × FsNode) → Bool
  | [] => true
  | (_, v) :: rest => wfFs v && wfChildren rest
termination_by ch => sizeOf ch

end

/-- Resolve a path (as segments) to the node it denotes. -/
def getNode : FsNode → List JsStr → Option FsNode
  | fs, [] => some fs
  | .file _ _ _ _, _ :: _ => none
  | .dir ch, seg :: rest =>
      match lookupChild seg ch with
      | none => none
      | some c => getNode c rest

/-- The FS errors the modelled operations produce (`eexist` is
errno 20). -/
inductive FsErr where
  | eexist
  | enoent
  | enotdir
  | eisdir
deriving DecidableEq

/-- `FS.mkdir(p)`: create an empty directory at `p`.  Fails with
`EEXIST` when a node already exists there, `ENOENT` when a parent is
missing, `ENOTDIR` when resolution passes through a file. -/
def mkdirSegs : FsNode → List JsStr → Except FsErr FsNode
  | _, [] => .error .eexist
  | .file _ _ _ _, _ :: _ => .error .enotdir
  | .dir ch, [seg] =>
      match lookupChild seg ch with
      | some _ => .error .eexist
      | none => .ok (.dir (insertChild seg (.dir []) ch))
  | .dir ch, seg :: s2 :: rest =>
      match lookupChild seg ch with
      | none => .error .enoent
      | some c =>
          match mkdirSegs c (s2 :: rest) with
          | .error e => .error e
          | .ok c2 => .ok (.dir (insertChild seg c2 ch))

/-- `FS.unlink(p)`: remove the file at `p`; a directory target fails
with `EISDIR`. -/
def unlinkSegs : FsNode → List JsStr → Except FsErr FsNode
  | _, [] => .error .eisdir
  | .file _ _ _ _, _ :: _ => .error .enotdir
  | .dir ch, [seg] =>
      match lookupChild seg ch with
      | none => .error .enoent
      | some (.dir _) => .error .eisdir
      | some (.file _ _ _ _) => .ok (.dir (removeChild seg ch))
  | .dir ch, seg :: s2 :: rest =>
      match lookupChild seg ch with
      | none => .error .enoent
      | some c =>
          match unlinkSegs c (s2 :: rest) with
          | .error e => .error e
          | .ok c2 => .ok (.dir (insertChild seg c2 ch))

/-- `FS.createDataFile(parent, name, data, canRead, canWrite, canOwn)`:
create a fresh file `name` under the directory `parent`, carrying all
three permission flags (the spec's full read/write/execute bits when
the caller passes `true, true, true`). -/
def createAt : FsNode → List JsStr → JsStr → List Nat → Except FsErr FsNode
  | .file _ _ _ _, _, _, _ => .error .enotdir
  | .dir ch, [], name, data =>
      match lookupChild name ch with
      | some _ => .error .eexist
      | none => .ok (.dir (insertChild name (.file data true true true) ch))
  | .dir ch, seg :: rest, name, data =>
      match lookupChild seg ch with
      | none => .error .enoent
      | some c =>
          match createAt c rest name data with
          | .error e => .error e
          | .ok c2 => .ok (.dir (insertChild seg c2 ch))

/-! ### `restoreSaveFiles` (src/save-manager.js:51-75) -/

/-- `path.lastIndexOf('/')`, as an optional index. -/
def lastIndexOfSlash : JsStr → Option Nat
  | [] => none
  | c :: rest =>
      match lastIndexOfSlash rest with
      | some i => some (i + 1)
      | none => if c = '/' then some 0 else none

/-- `path.substring(0, path.lastIndexOf('/')) || '/'`
(src/save-manager.js:54): the empty substring — no slash, or a slash
at index 0 — is falsy and becomes `'/'`. -/
def restoreDir (path : JsStr) : JsStr :=
  match lastIndexOfSlash path with
  | none => ['/']
  | some i => if i = 0 then ['/'] else path.take i

/-- `path.substring(path.lastIndexOf('/') + 1)` (src/save-manager.js:55). -/
def restoreName (path : JsStr) : JsStr :=
  match lastIndexOfSlash path with
  | none => path
  | some i => path.drop (i + 1)

/-- `s.split('/').filter(Boolean)` (src/save-manager.js:57) — also how
the FS facility resolves a path string into segments. -/
def segsOf (s : JsStr) : List JsStr :=
  (splitSlash s).filter (fun seg => !seg.isEmpty)

/-- `FS.mkdir(curr)` under the errno-20 tolerance
(src/save-manager.js:61-65): `EEXIST` is swallowed, leaving the state
as it was; any other error propagates. -/
def mkdirTolerant (fs : FsNode) (segs : List JsStr) : Except FsErr FsNode :=
  match mkdirSegs fs segs with
  | .ok fs2 => .ok fs2
  | .error .eexist => .ok fs
  | .error e => .error e

/-- The `curr += '/' + p; FS.mkdir(curr)` loop (src/save-manager.js:58-66)
over the remaining parts, `pre` being the segments of `curr` so far.
On a non-tolerated error the partial state is kept — the exception
aborts the entry, not the creations already performed. -/
def mkdirPrefixes (fs : FsNode) (pre : List JsStr) :
    List JsStr → FsNode × Bool
  | [] => (fs, true)
  | p :: rest =>
      match mkdirTolerant fs (pre ++ [p]) with
      | .error _ => (fs, false)
      | .ok fs2 => mkdirPrefixes fs2 (pre ++ [p]) rest

/-- `FS.analyzePath(path).exists` (src/save-manager.js:69). -/
def existsPath (fs : FsNode) (segs : List JsStr) : Bool :=
  (getNode fs segs).isSome

/-- One entry of `restoreSaveFiles` (src/save-manager.js:52-74): split
the path into parent and name, build the parent chain, unlink an
existing node at the target, create the data file with
`true, true, true`.  The whole entry body is inside a `try`: on a
failure the mutations already made are kept and the entry is
abandoned. -/
def restoreEntry (fs : FsNode) (path : JsStr) (data : List Nat) : FsNode :=
  let dir := restoreDir path
  let step1 :=
    if dir = ['/'] then (fs, true) else mkdirPrefixes fs [] (segsOf dir)
  if step1.2 then
    let fs1 := step1.1
    let step2 :=
      if existsPath fs1 (segsOf path) then
        match unlinkSegs fs1 (segsOf path) with
        | .error _ => (fs1, false)
        | .ok fs2 => (fs2, true)
      else (fs1, true)
    if step2.2 then
      match createAt step2.1 (segsOf dir) (restoreName path) data with
      | .error _ => step2.1
      | .ok fs3 => fs3
    else step2.1
  else step1.1

/-- `restoreSaveFiles` (src/save-manager.js:51-75): entries processed
in order; a failed entry never stops the remaining ones. -/
def restoreSaveFiles (fs : FsNode) : Snapshot → FsNode
  | [] => fs
  | (path, data) :: rest => restoreSaveFiles (restoreEntry fs path data) rest

/-! ### `collectSaveFiles` (src/save-manager.js:19-49) -/

/-- The `fullPath` computation (src/save-manager.js:27). -/
def childPath (path name : JsStr) : JsStr :=
  if path = ['/'] then '/' :: name else path ++ '/' :: name

mutual

/-- The recursive `walk` of `collectSaveFiles`
(src/save-manager.js:21-46) at the node `path` reaches; `FS.readdir`
on a non-directory throws, and the catch collects nothing there. -/
def collectWalk (fs : FsNode) (path : JsStr) : Snapshot :=
  match fs with
  | .file _ _ _ _ => []
  | .dir ch => collectChildren ch path

/-- The `for (const name of entries)` loop (src/save-manager.js:25-42):
skipped paths are dropped, directories are walked, readable files are
collected (`FS.open` with `'r'` on an unreadable file throws, and the
catch skips that entry). -/
def collectChildren (ch : List (JsStr × FsNode)) (path : JsStr) : Snapshot :=
  match ch with
  | [] => []
  | (name, node) :: rest =>
      if isSkippedPath (childPath path name) then collectChildren rest path
      else
        match node with
        | .dir ch2 =>
            collectChildren ch2 (childPath path name) ++
              collectChildren rest path
        | .file data r _ _ =>
            if r then (childPath path name, data) :: collectChildren rest path
            else collectChildren rest path
termination_by sizeOf ch

end

/-- `collectSaveFiles` (src/save-manager.js:19-49): walk from the
root. -/
def collectSaveFiles (fs : FsNode) : Snapshot :=
  collectWalk fs ['/']

/-! ### Orchestration: `doSave`, `exportSave`, `importSave` -/

/-- `doSave` (src/save-manager.js:233-240): collect, and only when the
mapping is nonempty, write it to the primary backend. -/
def doSave (fs : FsNode) (env : Env) : Env :=
  let files := collectSaveFiles fs
  if files.length > 0 then (saveToIndexedDB env files).1 else env

/-- `exportSave` (src/save-manager.js:178-190): `none` when no
downloadable artifact is produced — the empty-snapshot alert path, or
a thrown `serialize`; otherwise the blob content with the
date-stamped file name. -/
def exportSave (fs : FsNode) (date : JsStr) : Option (JsStr × JsStr) :=
  let files := collectSaveFiles fs
  if files.length = 0 then none
  else
    match serialize files with
    | none => none
    | some str => some (str, "sonic1-save-".data ++ date ++ ".bin".data)

/-- `new Uint8Array(v)[i]` conversion of one element of a decoded
array (src/save-manager.js:68): integers are taken mod 256, `true` is
1, everything else converts to 0. -/
def byteOfJson : Json → Nat
  | .num i => (i % 256).toNat
  | .bool true => 1
  | _ => 0

/-- `new Uint8Array(v)` on a decoded JSON value
(src/save-manager.js:68): an array converts elementwise; a number `n`
allocates `n` zero bytes; other values give an empty buffer. -/
def uint8ArrayOf : Json → List Nat
  | .arr es => es.map byteOfJson
  | .num i => List.replicate i.toNat 0
  | _ => []

/-- The `for (const path in files)` enumeration (src/save-manager.js:52)
of a decoded JSON value, with each value converted as
`new Uint8Array(files[path])`: an object's own keys in order, an
array's indices as decimal strings; primitives enumerate nothing. -/
def jsEntries : Json → Snapshot
  | .obj ms => ms.map (fun m => (m.1, uint8ArrayOf m.2))
  | .arr es => es.enum.map (fun ie => (natToDigits ie.1, uint8ArrayOf ie.2))
  | _ => []

/-- `btoa(JSON.stringify(v))` — `serialize` (src/save-manager.js:77-79)
applied to the raw decoded value `importSave` passes it. -/
def serializeJson (v : Json) : Option JsStr :=
  btoa (stringifyJson v)

/-- `saveToLocalStorage` (src/save-manager.js:155-167) on the decoded
value `importSave` passes. -/
def saveToLocalStorageJson (env : Env) (v : Json) : Env × SaveResult :=
  match serializeJson v with
  | none => (env, .err .invalidCharacter)
  | some str =>
      if 4 * 1024 * 1024 < str.length then (env, .err .capacityExceeded)
      else ({ env with localStorage := some str }, .ok)

/-- `saveToIndexedDB` (src/save-manager.js:89-121) on the decoded value
`importSave` passes. -/
def saveToIndexedDBJson (env : Env) (v : Json) : Env × SaveResult :=
  match env.idb with
  | none => saveToLocalStorageJson env v
  | some d =>
      let d2 := openDb d
      if IDB_STORE ∈ d2.stores then
        match serializeJson v with
        | none => ({ env with idb := some d2 }, .err .invalidCharacter)
        | some str =>
            ({ env with idb := some { d2 with record := some str } }, .ok)
      else ({ env with idb := some d2 }, .err .objectStoreNotFound)

/-- The outcome `importSave` reports through its continuations. -/
inductive ImportResult where
  | invalid
  | imported (r : SaveResult)
deriving DecidableEq

/-- `importSave`'s `onload` handler (src/save-manager.js:194-205):
decode the file text, reject unless the value is truthy and of object
type, otherwise restore into the FS and save to the primary
backend. -/
def importSave (fs : FsNode) (env : Env) (content : JsStr) :
    FsNode × Env × ImportResult :=
  let data := deserialize content
  if !jsTruthy data || !jsTypeofObject data then (fs, env, .invalid)
  else
    let fs2 := restoreSaveFiles fs (jsEntries data)
    let er := saveToIndexedDBJson env data
    (fs2, er.1, .imported er.2)

/-! ### Claims C7, C9, C10 -/

theorem collectChildren_not_skipped (ch : List (JsStr × FsNode)) (path : JsStr) :
    ∀ e ∈ collectChildren ch path, isSkippedPath e.1 = false := by
  induction ch, path using collectChildren.induct with
  | case1 path =>
      intro e he
      simp [collectChildren] at he
  | case2 path k v rest hskip ih =>
      intro e he
      rw [collectChildren.eq_def] at he
      simp only [] at he
      rw [if_pos hskip] at he
      exact ih e he
  | case3 path k rest hskip ch2 ih2 ih =>
      intro e he
      rw [collectChildren.eq_def] at he
      simp only [] at he
      rw [if_neg hskip] at he
      rcases List.mem_append.1 he with h | h
      · exact ih2 e h
      · exact ih e h
  | case4 path k rest hskip data w x ih =>
      intro e he
      rw [collectChildren.eq_def] at he
      simp only [] at he
      rw [if_neg hskip] at he
      rw [if_pos trivial] at he
      rcases List.mem_cons.1 he with he | he
      · rw [he]
        exact Bool.eq_false_iff.2 hskip
      · exact ih e he
  | case5 path k rest hskip data r w x hr ih =>
      intro e he
      rw [collectChildren.eq_def] at he
      simp only [] at he
      rw [if_neg hskip] at he
      simp only [if_neg hr] at he
      exact ih e he

/-- **C7**: the filter invariant — every path the traversal collects is
neither equal to an excluded prefix nor nested under one (no collected
path starts with the prefix followed by `/`). -/
theorem c7_filter_invariant (fs : FsNode) :
    ∀ e ∈ collectSaveFiles fs, ∀ sp ∈ SKIP_PATHS,
      e.1 ≠ sp ∧ (sp ++ ['/']).isPrefixOf e.1 = false := by
  intro e he sp hsp
  have h : isSkippedPath e.1 = false := by
    unfold collectSaveFiles at he
    rw [collectWalk.eq_def] at he
    match fs, he with
    | .file d r w x, he => simp at he
    | .dir ch, he => exact collectChildren_not_skipped ch ['/'] e he
  unfold isSkippedPath at h
  rw [List.any_eq_false] at h
  have h2 := h sp hsp
  simp only [Bool.or_eq_true, not_or, beq_iff_eq, Bool.not_eq_true] at h2
  exact h2

/-- Witness for C7 on a one-file tree. -/
theorem c7_filter_invariant_witness :
    ("/save.bin".data, ([7] : List Nat)).1 ≠ "/Data.rsdk".data ∧
    ("/Data.rsdk".data ++ ['/']).isPrefixOf
      ("/save.bin".data, ([7] : List Nat)).1 = false :=
  c7_filter_invariant (.dir [("save.bin".data, .file [7] true true true)])
    ("/save.bin".data, [7])
    (by simp [collectSaveFiles, collectWalk, collectChildren, isSkippedPath,
          childPath, SKIP_PATHS])
    "/Data.rsdk".data (by decide)

/-- **C10**: when the collected snapshot is empty, `doSave` performs no
backend write at all (the environment, stored records included, is
unchanged) and `exportSave` emits no downloadable artifact. -/
theorem c10_empty_snapshot (fs : FsNode) (env : Env) (date : JsStr)
    (h : collectSaveFiles fs = []) :
    doSave fs env = env ∧ exportSave fs date = none := by
  unfold doSave exportSave
  rw [h]
  simp

/-- Witness for C10: a tree whose only file is the excluded
`/Data.rsdk`, so the filter leaves nothing. -/
theorem c10_empty_snapshot_witness :
    collectSaveFiles (.dir [("Data.rsdk".data, .file [1] true true true)]) = [] ∧
    doSave (.dir [("Data.rsdk".data, .file [1] true true true)]) ⟨none, none⟩
      = ⟨none, none⟩ ∧
    exportSave (.dir [("Data.rsdk".data, .file [1] true true true)])
      "2026-10-12".data = none := by
  have h : collectSaveFiles
      (FsNode.dir [("Data.rsdk".data, .file [1] true true true)]) = [] := by
    simp [collectSaveFiles, collectWalk, collectChildren, isSkippedPath,
      childPath, SKIP_PATHS]
  exact ⟨h, (c10_empty_snapshot _ ⟨none, none⟩ "2026-10-12".data h).1,
    (c10_empty_snapshot _ ⟨none, none⟩ "2026-10-12".data h).2⟩

/-- Evaluation helper: parsing the bare JSON text `[1]`. -/
theorem jsonParse_arr_one : jsonParse ['[', '1', ']'] = some (Json.arr [Json.num 1]) := by
  have h3 := pOut_parseValue ['1', ']']
  rw [show skipWs ['1', ']'] = ['1', ']'] from by decide] at h3
  rw [pOut_valueCore_num '1' [']'] (by decide) (by decide)] at h3
  rw [show parseNumber ['1', ']'] = some ((1 : Int), [']']) from by decide] at h3
  have h4 := pOut_parseElemsLoop [Json.num 1] [']']
  rw [show skipWs [']'] = [']'] from by decide] at h4
  rw [pOut_elemsLoopCore_close [Json.num 1] []] at h4
  have h2 := pOut_parseElemsFirst ['1', ']']
  rw [show skipWs ['1', ']'] = ['1', ']'] from by decide] at h2
  rw [pOut_elemsFirstCore_value '1' [']'] (by decide)] at h2
  rw [h3] at h2
  simp only [Option.map_some', Option.some_bind] at h2
  rw [h4] at h2
  have h1 := pOut_parseValue ['[', '1', ']']
  rw [show skipWs ['[', '1', ']'] = ['[', '1', ']'] from by decide] at h1
  rw [pOut_valueCore_arr ['1', ']']] at h1
  rw [h2] at h1
  simp only [Option.map_some'] at h1
  obtain ⟨res, hres, hval, hrest⟩ := pOut_eq_some h1
  unfold jsonParse
  rw [hres]
  simp only []
  rw [hrest]
  simp [hval, skipWs]

/-- Evaluation helper: `"WzFd"` is the framing of the JSON text `[1]`. -/
theorem deserialize_WzFd : deserialize "WzFd".data = Json.arr [Json.num 1] := by
  unfold deserialize
  rw [show atob "WzFd".data = some ['[', '1', ']'] from by decide]
  simp only []
  rw [jsonParse_arr_one]

theorem natToDigits_zero : natToDigits 0 = ['0'] := by
  rw [natToDigits.eq_def]
  norm_num
  rfl

/-- The decoded array `[1]` is enumerated as the single entry
`"0" ↦ new Uint8Array(1)` — one zero byte. -/
theorem jsEntries_arr_one : jsEntries (Json.arr [Json.num 1]) = [(['0'], [0])] := by
  rw [jsEntries]
  simp [List.enum, natToDigits_zero, uint8ArrayOf, byteOfJson]

/-- **C9** (counterexample): the import content `"WzFd"` decodes to the
array `[1]` — not an object mapping — yet `importSave` does not report
the invalid-file error (`typeof [] === 'object'` passes the check): it
restores into the filesystem, creating the file `/0` with one zero
byte. -/
theorem c9_import_validation_counterexample :
    deserialize "WzFd".data = Json.arr [Json.num 1] ∧
    jsTypeofObject (Json.arr [Json.num 1]) = true ∧
    (importSave (.dir []) ⟨none, none⟩ "WzFd".data).1
      = .dir [(['0'], .file [0] true true true)] ∧
    (importSave (.dir []) ⟨none, none⟩ "WzFd".data).2.2 ≠ .invalid := by
  refine ⟨deserialize_WzFd, rfl, ?_, ?_⟩
  · unfold importSave
    rw [deserialize_WzFd]
    simp only [jsEntries_arr_one]
    rfl
  · unfold importSave
    rw [deserialize_WzFd]
    simp only [jsTruthy, jsTypeofObject, Bool.not_true, Bool.or_self, Bool.false_or,
      Bool.or_false, if_false]
    simp

/-- **C9** (amended): `importSave` rejects exactly the decoded values
that are falsy or not of JS object type — `null` (bad framing, invalid
JSON, or the literal `null`), numbers, strings, booleans.  For those it
reports the invalid-file error and leaves the filesystem and storage
untouched; but arrays pass the `typeof` check and are restored. -/
theorem c9_import_validation (fs : FsNode) (env : Env) (content : JsStr)
    (h : jsTruthy (deserialize content) = false ∨
         jsTypeofObject (deserialize content) = false) :
    importSave fs env content = (fs, env, .invalid) := by
  unfold importSave
  rcases h with h | h <;> simp [h]

/-- Witness for C9 at the un-decodable content `"####"`. -/
theorem c9_import_validation_witness :
    importSave (.dir []) ⟨none, none⟩ "####".data
      = (.dir [], ⟨none, none⟩, .invalid) :=
  c9_import_validation (.dir []) ⟨none, none⟩ "####".data (Or.inl (by decide))

/-! ### Sorted association lists: order, lookup, insert, remove -/

theorem ltStr_irrefl (s : JsStr) : ltStr s s = false := by
  induction s with
  | nil => rfl
  | cons c rest ih => simp [ltStr, ih]

theorem ltStr_trans : ∀ a b c : JsStr, ltStr a b = true → ltStr b c = true →
    ltStr a c = true := by
  intro a
  induction a with
  | nil =>
      intro b c hab hbc
      cases b with
      | nil => exact absurd hab (by simp [ltStr])
      | cons b1 bs =>
          cases c with
          | nil => exact absurd hbc (by simp [ltStr])
          | cons c1 cs => simp [ltStr]
  | cons a1 as ih =>
      intro b c hab hbc
      cases b with
      | nil => exact absurd hab (by simp [ltStr])
      | cons b1 bs =>
          cases c with
          | nil => exact absurd hbc (by simp [ltStr])
          | cons c1 cs =>
              simp only [ltStr] at hab hbc ⊢
              by_cases h1 : a1.toNat < b1.toNat
              · by_cases h2 : b1.toNat < c1.toNat
                · rw [if_pos (by omega)]
                · rw [if_neg h2] at hbc
                  by_cases h3 : c1.toNat < b1.toNat
                  · rw [if_pos h3] at hbc
                    exact absurd hbc (by simp)
                  · have : b1.toNat = c1.toNat := by omega
                    rw [if_pos (by omega)]
              · rw [if_neg h1] at hab
                by_cases h4 : b1.toNat < a1.toNat
                · rw [if_pos h4] at hab
                  exact absurd hab (by simp)
                · rw [if_neg h4] at hab
                  have hea : a1.toNat = b1.toNat := by omega
                  by_cases h2 : b1.toNat < c1.toNat
                  · rw [if_pos (by omega)]
                  · rw [if_neg h2] at hbc
                    by_cases h3 : c1.toNat < b1.toNat
                    · rw [if_pos h3] at hbc
                      exact absurd hbc (by simp)
                    · rw [if_neg h3] at hbc
                      rw [if_neg (by omega), if_neg (by omega)]
                      exact ih bs cs hab hbc

theorem ltStr_asymm : ∀ a b : JsStr, ltStr a b = true → ltStr b a = false := by
  intro a
  induction a with
  | nil =>
      intro b hab
      cases b with
      | nil => exact absurd hab (by simp [ltStr])
      | cons b1 bs => simp [ltStr]
  | cons a1 as ih =>
      intro b hab
      cases b with
      | nil => exact absurd hab (by simp [ltStr])
      | cons b1 bs =>
          simp only [ltStr] at hab ⊢
          by_cases h1 : a1.toNat < b1.toNat
          · rw [if_neg (by omega), if_pos h1]
          · rw [if_neg h1] at hab
            by_cases h2 : b1.toNat < a1.toNat
            · rw [if_pos h2] at hab
              exact absurd hab (by simp)
            · rw [if_neg h2] at hab
              rw [if_neg (by omega), if_neg (by omega)]
              exact ih bs hab

theorem ltStr_tri : ∀ a b : JsStr, ltStr a b = false → a ≠ b → ltStr b a = true := by
  intro a
  induction a with
  | nil =>
      intro b hab hne
      cases b with
      | nil => exact absurd rfl hne
      | cons b1 bs => exact absurd hab (by simp [ltStr])
  | cons a1 as ih =>
      intro b hab hne
      cases b with
      | nil => simp [ltStr]
      | cons b1 bs =>
          simp only [ltStr] at hab ⊢
          by_cases h1 : a1.toNat < b1.toNat
          · rw [if_pos h1] at hab
            exact absurd hab (by simp)
          · rw [if_neg h1] at hab
            by_cases h2 : b1.toNat < a1.toNat
            · rw [if_pos h2]
            · rw [if_neg h2] at hab
              rw [if_neg (by omega), if_neg (by omega)]
              have hn : a1.toNat = b1.toNat := by omega
              have hc : a1 = b1 := Char.ext (UInt32.ext hn)
              refine ih bs hab ?_
              intro hh
              exact hne (by rw [hc, hh])





theorem lookupChild_insertChild_self (k : JsStr) (v : FsNode) :
    ∀ l, lookupChild k (insertChild k v l) = some v := by
  intro l
  induction l with
  | nil => simp [insertChild, lookupChild]
  | cons p rest ih =>
      obtain ⟨k1, v1⟩ := p
      rw [insertChild]
      by_cases h1 : ltStr k k1 = true
      · rw [if_pos h1]
        simp [lookupChild]
      · rw [if_neg h1]
        by_cases h2 : k = k1
        · rw [if_pos h2]
          simp [lookupChild]
        · rw [if_neg h2]
          rw [lookupChild, if_neg h2]
          exact ih

theorem lookupChild_insertChild_other (k k2 : JsStr) (v : FsNode) (hne : k ≠ k2) :
    ∀ l, lookupChild k (insertChild k2 v l) = lookupChild k l := by
  intro l
  induction l with
  | nil => simp [insertChild, lookupChild, hne]
  | cons p rest ih =>
      obtain ⟨k1, v1⟩ := p
      rw [insertChild]
      by_cases h1 : ltStr k2 k1 = true
      · rw [if_pos h1]
        rw [lookupChild, if_neg hne]
      · rw [if_neg h1]
        by_cases h2 : k2 = k1
        · rw [if_pos h2]
          rw [lookupChild, if_neg hne, lookupChild, ← h2, if_neg hne]
        · rw [if_neg h2]
          rw [lookupChild, lookupChild]
          by_cases h3 : k = k1
          · rw [if_pos h3, if_pos h3]
          · rw [if_neg h3, if_neg h3]
            exact ih

theorem insertChild_insertChild_same (k : JsStr) (v v' : FsNode) :
    ∀ l, insertChild k v (insertChild k v' l) = insertChild k v l := by
  intro l
  induction l with
  | nil => simp [insertChild, ltStr_irrefl]
  | cons p rest ih =>
      obtain ⟨k1, v1⟩ := p
      rw [insertChild]
      by_cases h1 : ltStr k k1 = true
      · rw [if_pos h1]
        rw [insertChild, if_neg (by rw [ltStr_irrefl]; simp), if_pos rfl,
          insertChild, if_pos h1]
      · rw [if_neg h1]
        by_cases h2 : k = k1
        · rw [if_pos h2]
          rw [insertChild, if_neg (by rw [ltStr_irrefl]; simp), if_pos rfl,
            insertChild, if_neg h1, if_pos h2]
        · rw [if_neg h2]
          rw [insertChild, if_neg h1, if_neg h2, insertChild, if_neg h1, if_neg h2, ih]

theorem sortedKeys_tail {p : JsStr × FsNode} {l : List (JsStr × FsNode)}
    (h : sortedKeys (p :: l) = true) : sortedKeys l = true := by
  cases l with
  | nil => rfl
  | cons q rest =>
      obtain ⟨k1, v1⟩ := p
      obtain ⟨k2, v2⟩ := q
      rw [sortedKeys] at h
      exact (Bool.and_eq_true_iff.1 h).2

theorem sortedKeys_head_lt {k1 : JsStr} {v1 : FsNode} {k2 : JsStr} {v2 : FsNode}
    {l : List (JsStr × FsNode)}
    (h : sortedKeys ((k1, v1) :: (k2, v2) :: l) = true) : ltStr k1 k2 = true := by
  rw [sortedKeys] at h
  exact (Bool.and_eq_true_iff.1 h).1

theorem sorted_lookup_gt {k1 : JsStr} {v1 : FsNode} :
    ∀ {l : List (JsStr × FsNode)} {k : JsStr} {v : FsNode},
      sortedKeys ((k1, v1) :: l) = true → lookupChild k l = some v →
      ltStr k1 k = true := by
  intro l
  induction l generalizing k1 v1 with
  | nil => intro k v hs hl; exact absurd hl (by simp [lookupChild])
  | cons q rest ih =>
      obtain ⟨k2, v2⟩ := q
      intro k v hs hl
      rw [lookupChild] at hl
      by_cases h : k = k2
      · rw [← h] at hs
        exact sortedKeys_head_lt hs
      · rw [if_neg h] at hl
        exact ltStr_trans _ _ _ (sortedKeys_head_lt hs) (ih (sortedKeys_tail hs) hl)

theorem insertChild_eq_self {k : JsStr} {v : FsNode} :
    ∀ {l}, sortedKeys l = true → lookupChild k l = some v →
      insertChild k v l = l := by
  intro l
  induction l with
  | nil => intro _ hl; exact absurd hl (by simp [lookupChild])
  | cons p rest ih =>
      obtain ⟨k1, v1⟩ := p
      intro hs hl
      rw [lookupChild] at hl
      rw [insertChild]
      by_cases h2 : k = k1
      · rw [if_pos h2] at hl
        injection hl with hl
        rw [if_neg (by rw [h2, ltStr_irrefl]; simp), if_pos h2, h2, hl]
      · rw [if_neg h2] at hl
        have hgt : ltStr k1 k = true := sorted_lookup_gt hs hl
        rw [if_neg (by rw [ltStr_asymm _ _ hgt]; simp), if_neg h2,
          ih (sortedKeys_tail hs) hl]

theorem lookupChild_removeChild_self {k : JsStr} :
    ∀ {l}, sortedKeys l = true → lookupChild k (removeChild k l) = none := by
  intro l
  induction l with
  | nil => intro _; simp [removeChild, lookupChild]
  | cons p rest ih =>
      obtain ⟨k1, v1⟩ := p
      intro hs
      rw [removeChild]
      by_cases h : k = k1
      · rw [if_pos h]
        cases hl : lookupChild k rest with
        | none => rfl
        | some v =>
            have := sorted_lookup_gt hs hl
            rw [h, ltStr_irrefl] at this
            exact absurd this (by simp)
      · rw [if_neg h, lookupChild, if_neg h]
        exact ih (sortedKeys_tail hs)

theorem insertChild_removeChild {k : JsStr} {v v0 : FsNode} :
    ∀ {l}, sortedKeys l = true → lookupChild k l = some v0 →
      insertChild k v (removeChild k l) = insertChild k v l := by
  intro l
  induction l with
  | nil => intro _ hl; exact absurd hl (by simp [lookupChild])
  | cons p rest ih =>
      obtain ⟨k1, v1⟩ := p
      intro hs hl
      rw [lookupChild] at hl
      rw [removeChild]
      by_cases h : k = k1
      · rw [if_pos h]
        subst h
        rw [insertChild, if_neg (by rw [ltStr_irrefl]; simp), if_pos rfl]
        cases rest with
        | nil => rfl
        | cons q r2 =>
            obtain ⟨k2, v2⟩ := q
            rw [insertChild, if_pos (sortedKeys_head_lt hs)]
      · rw [if_neg h] at hl
        rw [if_neg h]
        have hgt : ltStr k1 k = true := sorted_lookup_gt hs hl
        rw [insertChild, if_neg (by rw [ltStr_asymm _ _ hgt]; simp), if_neg h,
          insertChild, if_neg (by rw [ltStr_asymm _ _ hgt]; simp), if_neg h,
          ih (sortedKeys_tail hs) hl]






theorem sortedKeys_cons_cons {k1 : JsStr} {v1 : FsNode} {k2 : JsStr} {v2 : FsNode}
    {l : List (JsStr × FsNode)} (h1 : ltStr k1 k2 = true)
    (h2 : sortedKeys ((k2, v2) :: l) = true) :
    sortedKeys ((k1, v1) :: (k2, v2) :: l) = true := by
  rw [sortedKeys, h1, h2]
  rfl

theorem sortedKeys_insertChild (k : JsStr) (v : FsNode) :
    ∀ l, sortedKeys l = true → sortedKeys (insertChild k v l) = true := by
  intro l
  induction l with
  | nil => intro _; rfl
  | cons p rest ih =>
      obtain ⟨k1, v1⟩ := p
      intro hs
      rw [insertChild]
      by_cases h1 : ltStr k k1 = true
      · rw [if_pos h1]
        exact sortedKeys_cons_cons h1 hs
      · rw [if_neg h1]
        by_cases h2 : k = k1
        · rw [if_pos h2]
          subst h2
          cases rest with
          | nil => rfl
          | cons q r2 =>
              obtain ⟨k2, v2⟩ := q
              exact sortedKeys_cons_cons (sortedKeys_head_lt hs) (sortedKeys_tail hs)
        · rw [if_neg h2]
          have hgt : ltStr k1 k = true :=
            ltStr_tri k k1 (Bool.not_eq_true _ ▸ h1) (by exact h2)
          have hrest := ih (sortedKeys_tail hs)
          cases hr : rest with
          | nil =>
              rw [insertChild]
              exact sortedKeys_cons_cons hgt rfl
          | cons q r2 =>
              obtain ⟨k2, v2⟩ := q
              rw [hr] at hs
              rw [insertChild]
              by_cases h3 : ltStr k k2 = true
              · rw [if_pos h3]
                exact sortedKeys_cons_cons hgt (by rw [hr] at hrest; rw [insertChild, if_pos h3] at hrest; exact hrest)
              · rw [if_neg h3]
                by_cases h4 : k = k2
                · rw [if_pos h4]
                  refine sortedKeys_cons_cons hgt ?_
                  rw [hr] at hrest
                  rw [insertChild, if_neg h3, if_pos h4] at hrest
                  exact hrest
                · rw [if_neg h4]
                  refine sortedKeys_cons_cons (sortedKeys_head_lt hs) ?_
                  rw [hr] at hrest
                  rw [insertChild, if_neg h3, if_neg h4] at hrest
                  exact hrest

theorem sortedKeys_removeChild (k : JsStr) :
    ∀ l, sortedKeys l = true → sortedKeys (removeChild k l) = true := by
  intro l
  induction l with
  | nil => intro _; rfl
  | cons p rest ih =>
      obtain ⟨k1, v1⟩ := p
      intro hs
      rw [removeChild]
      by_cases h : k = k1
      · rw [if_pos h]
        exact sortedKeys_tail hs
      · rw [if_neg h]
        have hrest := ih (sortedKeys_tail hs)
        cases rest with
        | nil => rfl
        | cons q r2 =>
            obtain ⟨k2, v2⟩ := q
            rw [removeChild]
            by_cases h2 : k = k2
            · rw [if_pos h2]
              cases r2 with
              | nil => rfl
              | cons q3 r3 =>
                  obtain ⟨k3, v3⟩ := q3
                  refine sortedKeys_cons_cons
                    (ltStr_trans _ _ _ (sortedKeys_head_lt hs)
                      (sortedKeys_head_lt (sortedKeys_tail hs)))
                    (sortedKeys_tail (sortedKeys_tail hs))
            · rw [if_neg h2]
              refine sortedKeys_cons_cons (sortedKeys_head_lt hs) ?_
              rw [removeChild, if_neg h2] at hrest
              exact hrest

theorem wfFs_dir {ch : List (JsStr × FsNode)} :
    wfFs (.dir ch) = true ↔ sortedKeys ch = true ∧ wfChildren ch = true := by
  rw [wfFs]
  exact Bool.and_eq_true_iff

theorem wfChildren_lookup {k : JsStr} {v : FsNode} :
    ∀ {l}, wfChildren l = true → lookupChild k l = some v → wfFs v = true := by
  intro l
  induction l with
  | nil => intro _ hl; exact absurd hl (by simp [lookupChild])
  | cons p rest ih =>
      obtain ⟨k1, v1⟩ := p
      intro hw hl
      rw [wfChildren] at hw
      rw [lookupChild] at hl
      by_cases h : k = k1
      · rw [if_pos h] at hl
        injection hl with hl
        rw [← hl]
        exact (Bool.and_eq_true_iff.1 hw).1
      · rw [if_neg h] at hl
        exact ih (Bool.and_eq_true_iff.1 hw).2 hl

theorem wfChildren_insertChild {k : JsStr} {v : FsNode} :
    ∀ {l}, wfChildren l = true → wfFs v = true →
      wfChildren (insertChild k v l) = true := by
  intro l
  induction l with
  | nil =>
      intro _ hv
      rw [insertChild]
      simp [wfChildren, hv]
  | cons p rest ih =>
      obtain ⟨k1, v1⟩ := p
      intro hw hv
      rw [wfChildren] at hw
      obtain ⟨hv1, hrest⟩ := Bool.and_eq_true_iff.1 hw
      rw [insertChild]
      by_cases h1 : ltStr k k1 = true
      · rw [if_pos h1]
        simp [wfChildren, hv, hv1, hrest]
      · rw [if_neg h1]
        by_cases h2 : k = k1
        · rw [if_pos h2]
          simp [wfChildren, hv, hrest]
        · rw [if_neg h2]
          simp [wfChildren, hv1, ih hrest hv]

theorem wfChildren_removeChild (k : JsStr) :
    ∀ {l}, wfChildren l = true → wfChildren (removeChild k l) = true := by
  intro l
  induction l with
  | nil => intro _; simp [removeChild, wfChildren]
  | cons p rest ih =>
      obtain ⟨k1, v1⟩ := p
      intro hw
      rw [wfChildren] at hw
      obtain ⟨hv1, hrest⟩ := Bool.and_eq_true_iff.1 hw
      rw [removeChild]
      by_cases h : k = k1
      · rw [if_pos h]
        exact hrest
      · rw [if_neg h]
        simp [wfChildren, hv1, ih hrest]

/-! ### The net effect of one restore entry -/

/-- Analysis helper: the net effect of one `restoreSaveFiles` entry on
the tree, as a single recursion over the parent segments — descend
through (or create) directories, and at the parent replace a missing
or file target with the new data file, leaving a directory target
alone. -/
def placeFile : FsNode → List JsStr → JsStr → List Nat → FsNode
  | .file d r w x, _, _, _ => .file d r w x
  | .dir ch, [], nm, dat =>
      match lookupChild nm ch with
      | some (.dir _) => .dir ch
      | _ => .dir (insertChild nm (.file dat true true true) ch)
  | .dir ch, s :: rest, nm, dat =>
      match lookupChild s ch with
      | none => .dir (insertChild s (placeFile (.dir []) rest nm dat) ch)
      | some c => .dir (insertChild s (placeFile c rest nm dat) ch)

theorem insertChild_self_lookup {k : JsStr} {v : FsNode} :
    ∀ {l}, insertChild k v l = l → lookupChild k l = some v := by
  intro l
  induction l with
  | nil => intro h; exact absurd h (by simp [insertChild])
  | cons p rest ih =>
      obtain ⟨k1, v1⟩ := p
      intro h
      rw [insertChild] at h
      by_cases h1 : ltStr k k1 = true
      · rw [if_pos h1] at h
        have := congrArg List.length h
        simp at this
      · rw [if_neg h1] at h
        by_cases h2 : k = k1
        · rw [if_pos h2] at h
          injection h with h3 h4
          injection h3 with h5 h6
          rw [lookupChild, if_pos h2, h6]
        · rw [if_neg h2] at h
          injection h with h3 h4
          rw [lookupChild, if_neg h2]
          exact ih h4

theorem placeFile_dir_shape (ch : List (JsStr × FsNode)) (ds : List JsStr)
    (nm : JsStr) (dat : List Nat) :
    ∃ ch2, placeFile (.dir ch) ds nm dat = .dir ch2 := by
  cases ds with
  | nil =>
      rw [placeFile]
      cases h : lookupChild nm ch with
      | none => exact ⟨_, rfl⟩
      | some c =>
          cases c with
          | file d r w x => exact ⟨_, rfl⟩
          | dir ch2 => exact ⟨ch, rfl⟩
  | cons s rest =>
      rw [placeFile]
      cases h : lookupChild s ch with
      | none => exact ⟨_, rfl⟩
      | some c => exact ⟨_, rfl⟩

theorem wfFs_placeFile (ds : List JsStr) (nm : JsStr) (dat : List Nat) :
    ∀ fs, wfFs fs = true → wfFs (placeFile fs ds nm dat) = true := by
  induction ds with
  | nil =>
      intro fs hwf
      cases fs with
      | file d r w x => exact hwf
      | dir ch =>
          rw [placeFile]
          obtain ⟨hs, hc⟩ := wfFs_dir.1 hwf
          cases h : lookupChild nm ch with
          | none =>
              exact wfFs_dir.2 ⟨sortedKeys_insertChild _ _ _ hs,
                wfChildren_insertChild hc (by rw [wfFs])⟩
          | some c =>
              cases c with
              | file d r w x =>
                  exact wfFs_dir.2 ⟨sortedKeys_insertChild _ _ _ hs,
                    wfChildren_insertChild hc (by rw [wfFs])⟩
              | dir ch2 => exact hwf
  | cons s rest ih =>
      intro fs hwf
      cases fs with
      | file d r w x => exact hwf
      | dir ch =>
          rw [placeFile]
          obtain ⟨hs, hc⟩ := wfFs_dir.1 hwf
          cases h : lookupChild s ch with
          | none =>
              refine wfFs_dir.2 ⟨sortedKeys_insertChild _ _ _ hs,
                wfChildren_insertChild hc (ih _ ?_)⟩
              simp [wfFs, sortedKeys, wfChildren]
          | some c =>
              exact wfFs_dir.2 ⟨sortedKeys_insertChild _ _ _ hs,
                wfChildren_insertChild hc (ih _ (wfChildren_lookup hc h))⟩

theorem placeFile_idem (ds : List JsStr) (nm : JsStr) (dat : List Nat) :
    ∀ fs, placeFile (placeFile fs ds nm dat) ds nm dat = placeFile fs ds nm dat := by
  induction ds with
  | nil =>
      intro fs
      cases fs with
      | file d r w x => rfl
      | dir ch =>
          rw [placeFile]
          cases h : lookupChild nm ch with
          | none =>
              rw [placeFile, lookupChild_insertChild_self]
              simp only []
              rw [insertChild_insertChild_same]
          | some c =>
              cases c with
              | file d r w x =>
                  rw [placeFile, lookupChild_insertChild_self]
                  simp only []
                  rw [insertChild_insertChild_same]
              | dir ch2 =>
                  rw [placeFile, h]
  | cons s rest ih =>
      intro fs
      cases fs with
      | file d r w x => rfl
      | dir ch =>
          rw [placeFile]
          cases h : lookupChild s ch with
          | none =>
              rw [placeFile, lookupChild_insertChild_self]
              simp only []
              rw [ih, insertChild_insertChild_same]
          | some c =>
              rw [placeFile, lookupChild_insertChild_self]
              simp only []
              rw [ih, insertChild_insertChild_same]

theorem placeFile_file (d : List Nat) (r w x : Bool) (ds : List JsStr)
    (nm : JsStr) (dat : List Nat) :
    placeFile (.file d r w x) ds nm dat = .file d r w x := by
  rw [placeFile]


theorem placeFile_stable_preserved :
    ∀ (ds : List JsStr) (nm : JsStr) (dat : List Nat)
      (ds' : List JsStr) (nm' : JsStr) (dat' : List Nat) (fs : FsNode),
      wfFs fs = true →
      ds ++ [nm] ≠ ds' ++ [nm'] →
      placeFile fs ds nm dat = fs →
      placeFile (placeFile fs ds' nm' dat') ds nm dat
        = placeFile fs ds' nm' dat' := by
  intro ds
  induction ds with
  | nil =>
      intro nm dat ds' nm' dat' fs hwf hne hst
      cases fs with
      | file d r w x => rw [placeFile_file, placeFile_file]
      | dir ch =>
          obtain ⟨hs, hc⟩ := wfFs_dir.1 hwf
          rw [placeFile] at hst
          cases ds' with
          | nil =>
              have hnm : nm ≠ nm' := fun h => hne (by rw [h])
              cases hl : lookupChild nm ch with
              | none =>
                  rw [hl] at hst
                  simp only [] at hst
                  have := insertChild_self_lookup (FsNode.dir.inj hst)
                  rw [this] at hl
                  exact absurd hl (by simp)
              | some c0 =>
                  cases c0 with
                  | dir ch2 =>
                      cases hl' : lookupChild nm' ch with
                      | none =>
                          have hf' : placeFile (.dir ch) [] nm' dat'
                              = .dir (insertChild nm' (.file dat' true true true) ch) := by
                            rw [placeFile, hl']
                          rw [hf', placeFile,
                            lookupChild_insertChild_other nm nm' _ hnm, hl]
                      | some c0' =>
                          cases c0' with
                          | dir ch2' =>
                              have hf' : placeFile (.dir ch) [] nm' dat' = .dir ch := by
                                rw [placeFile, hl']
                              rw [hf', placeFile, hl]
                          | file d' r' w' x' =>
                              have hf' : placeFile (.dir ch) [] nm' dat'
                                  = .dir (insertChild nm' (.file dat' true true true) ch) := by
                                rw [placeFile, hl']
                              rw [hf', placeFile,
                                lookupChild_insertChild_other nm nm' _ hnm, hl]
                  | file d0 r0 w0 x0 =>
                      rw [hl] at hst
                      simp only [] at hst
                      have hins := FsNode.dir.inj hst
                      have hlf := insertChild_self_lookup hins
                      cases hl' : lookupChild nm' ch with
                      | none =>
                          have hf' : placeFile (.dir ch) [] nm' dat'
                              = .dir (insertChild nm' (.file dat' true true true) ch) := by
                            rw [placeFile, hl']
                          rw [hf', placeFile,
                            lookupChild_insertChild_other nm nm' _ hnm, hl]
                          simp only []
                          rw [insertChild_eq_self
                            (sortedKeys_insertChild _ _ _ hs)
                            (by rw [lookupChild_insertChild_other nm nm' _ hnm]
                                exact hlf)]
                      | some c0' =>
                          cases c0' with
                          | dir ch2' =>
                              have hf' : placeFile (.dir ch) [] nm' dat' = .dir ch := by
                                rw [placeFile, hl']
                              rw [hf', placeFile, hl]
                              simp only []
                              rw [hins]
                          | file d' r' w' x' =>
                              have hf' : placeFile (.dir ch) [] nm' dat'
                                  = .dir (insertChild nm' (.file dat' true true true) ch) := by
                                rw [placeFile, hl']
                              rw [hf', placeFile,
                                lookupChild_insertChild_other nm nm' _ hnm, hl]
                              simp only []
                              rw [insertChild_eq_self
                                (sortedKeys_insertChild _ _ _ hs)
                                (by rw [lookupChild_insertChild_other nm nm' _ hnm]
                                    exact hlf)]
          | cons s' rest' =>
              cases hl : lookupChild nm ch with
              | none =>
                  rw [hl] at hst
                  simp only [] at hst
                  have := insertChild_self_lookup (FsNode.dir.inj hst)
                  rw [this] at hl
                  exact absurd hl (by simp)
              | some c0 =>
                  by_cases hnm : nm = s'
                  · subst hnm
                    cases c0 with
                    | dir ch2 =>
                        have hf' : placeFile (.dir ch) (nm :: rest') nm' dat'
                            = .dir (insertChild nm
                                (placeFile (.dir ch2) rest' nm' dat') ch) := by
                          rw [placeFile, hl]
                        obtain ⟨ch3, hch3⟩ := placeFile_dir_shape ch2 rest' nm' dat'
                        rw [hf', placeFile, lookupChild_insertChild_self, hch3]
                    | file d0 r0 w0 x0 =>
                        rw [hl] at hst
                        simp only [] at hst
                        have hins := FsNode.dir.inj hst
                        have hf' : placeFile (.dir ch) (nm :: rest') nm' dat'
                            = .dir (insertChild nm (.file d0 r0 w0 x0) ch) := by
                          rw [placeFile, hl]
                          simp only []
                          rw [placeFile_file]
                        rw [insertChild_eq_self hs hl] at hf'
                        rw [hf', placeFile, hl]
                        simp only []
                        rw [hins]
                  · cases c0 with
                    | dir ch2 =>
                        cases hl' : lookupChild s' ch with
                        | none =>
                            have hf' : placeFile (.dir ch) (s' :: rest') nm' dat'
                                = .dir (insertChild s'
                                    (placeFile (.dir []) rest' nm' dat') ch) := by
                              rw [placeFile, hl']
                            rw [hf', placeFile,
                              lookupChild_insertChild_other nm s' _ hnm, hl]
                        | some c' =>
                            have hf' : placeFile (.dir ch) (s' :: rest') nm' dat'
                                = .dir (insertChild s'
                                    (placeFile c' rest' nm' dat') ch) := by
                              rw [placeFile, hl']
                            rw [hf', placeFile,
                              lookupChild_insertChild_other nm s' _ hnm, hl]
                    | file d0 r0 w0 x0 =>
                        rw [hl] at hst
                        simp only [] at hst
                        have hins := FsNode.dir.inj hst
                        have hlf := insertChild_self_lookup hins
                        cases hl' : lookupChild s' ch with
                        | none =>
                            have hf' : placeFile (.dir ch) (s' :: rest') nm' dat'
                                = .dir (insertChild s'
                                    (placeFile (.dir []) rest' nm' dat') ch) := by
                              rw [placeFile, hl']
                            rw [hf', placeFile,
                              lookupChild_insertChild_other nm s' _ hnm, hl]
                            simp only []
                            rw [insertChild_eq_self
                              (sortedKeys_insertChild _ _ _ hs)
                              (by rw [lookupChild_insertChild_other nm s' _ hnm]
                                  exact hlf)]
                        | some c' =>
                            have hf' : placeFile (.dir ch) (s' :: rest') nm' dat'
                                = .dir (insertChild s'
                                    (placeFile c' rest' nm' dat') ch) := by
                              rw [placeFile, hl']
                            rw [hf', placeFile,
                              lookupChild_insertChild_other nm s' _ hnm, hl]
                            simp only []
                            rw [insertChild_eq_self
                              (sortedKeys_insertChild _ _ _ hs)
                              (by rw [lookupChild_insertChild_other nm s' _ hnm]
                                  exact hlf)]
  | cons s rest ih =>
      intro nm dat ds' nm' dat' fs hwf hne hst
      cases fs with
      | file d r w x => rw [placeFile_file, placeFile_file]
      | dir ch =>
          obtain ⟨hs, hc⟩ := wfFs_dir.1 hwf
          rw [placeFile] at hst
          cases hl : lookupChild s ch with
          | none =>
              rw [hl] at hst
              simp only [] at hst
              have := insertChild_self_lookup (FsNode.dir.inj hst)
              rw [this] at hl
              exact absurd hl (by simp)
          | some c =>
              rw [hl] at hst
              simp only [] at hst
              have hins := FsNode.dir.inj hst
              have hlf := insertChild_self_lookup hins
              have hceq : placeFile c rest nm dat = c := by
                have h2 := hlf.symm.trans hl
                injection h2
              rw [hceq] at hins hlf
              cases ds' with
              | nil =>
                  cases hl' : lookupChild nm' ch with
                  | none =>
                      have hf' : placeFile (.dir ch) [] nm' dat'
                          = .dir (insertChild nm' (.file dat' true true true) ch) := by
                        rw [placeFile, hl']
                      by_cases hsn : s = nm'
                      · subst hsn
                        rw [hlf] at hl'
                        exact absurd hl' (by simp)
                      · rw [hf', placeFile,
                          lookupChild_insertChild_other s nm' _ hsn, hl]
                        simp only []
                        rw [hceq, insertChild_eq_self
                          (sortedKeys_insertChild _ _ _ hs)
                          (by rw [lookupChild_insertChild_other s nm' _ hsn]
                              exact hlf)]
                  | some c0' =>
                      cases c0' with
                      | dir ch2' =>
                          have hf' : placeFile (.dir ch) [] nm' dat' = .dir ch := by
                            rw [placeFile, hl']
                          rw [hf', placeFile, hl]
                          simp only []
                          rw [hceq, hins]
                      | file d' r' w' x' =>
                          have hf' : placeFile (.dir ch) [] nm' dat'
                              = .dir (insertChild nm' (.file dat' true true true) ch) := by
                            rw [placeFile, hl']
                          by_cases hsn : s = nm'
                          · subst hsn
                            rw [hf', placeFile, lookupChild_insertChild_self]
                            simp only []
                            rw [placeFile_file, insertChild_insertChild_same]
                          · rw [hf', placeFile,
                              lookupChild_insertChild_other s nm' _ hsn, hl]
                            simp only []
                            rw [hceq, insertChild_eq_self
                              (sortedKeys_insertChild _ _ _ hs)
                              (by rw [lookupChild_insertChild_other s nm' _ hsn]
                                  exact hlf)]
              | cons s' rest' =>
                  by_cases hss : s = s'
                  · subst hss
                    have hne2 : rest ++ [nm] ≠ rest' ++ [nm'] := by
                      intro h
                      exact hne (by simp [h])
                    have hf' : placeFile (.dir ch) (s :: rest') nm' dat'
                        = .dir (insertChild s (placeFile c rest' nm' dat') ch) := by
                      rw [placeFile, hl]
                    rw [hf', placeFile, lookupChild_insertChild_self]
                    simp only []
                    rw [ih nm dat rest' nm' dat' c (wfChildren_lookup hc hl) hne2 hceq,
                      insertChild_insertChild_same]
                  · cases hl' : lookupChild s' ch with
                    | none =>
                        have hf' : placeFile (.dir ch) (s' :: rest') nm' dat'
                            = .dir (insertChild s'
                                (placeFile (.dir []) rest' nm' dat') ch) := by
                          rw [placeFile, hl']
                        rw [hf', placeFile,
                          lookupChild_insertChild_other s s' _ hss, hl]
                        simp only []
                        rw [hceq, insertChild_eq_self
                          (sortedKeys_insertChild _ _ _ hs)
                          (by rw [lookupChild_insertChild_other s s' _ hss]
                              exact hlf)]
                    | some c' =>
                        have hf' : placeFile (.dir ch) (s' :: rest') nm' dat'
                            = .dir (insertChild s'
                                (placeFile c' rest' nm' dat') ch) := by
                          rw [placeFile, hl']
                        rw [hf', placeFile,
                          lookupChild_insertChild_other s s' _ hss, hl]
                        simp only []
                        rw [hceq, insertChild_eq_self
                          (sortedKeys_insertChild _ _ _ hs)
                          (by rw [lookupChild_insertChild_other s s' _ hss]
                              exact hlf)]

/-- Analysis helper: the body of one restore entry, after the path has
been resolved into parent segments and a file name. -/
def entrySteps (fs : FsNode) (ds : List JsStr) (nm : JsStr) (d : List Nat) : FsNode :=
  let step1 := mkdirPrefixes fs [] ds
  if step1.2 then
    let step2 :=
      if existsPath step1.1 (ds ++ [nm]) then
        match unlinkSegs step1.1 (ds ++ [nm]) with
        | .error _ => (step1.1, false)
        | .ok fs2 => (fs2, true)
      else (step1.1, true)
    if step2.2 then
      match createAt step2.1 ds nm d with
      | .error _ => step2.1
      | .ok fs3 => fs3
    else step2.1
  else step1.1

theorem mkdirSegs_cons (ch : List (JsStr × FsNode)) (s : JsStr) (q : List JsStr)
    (hq : q ≠ []) :
    mkdirSegs (.dir ch) (s :: q)
      = match lookupChild s ch with
        | none => .error .enoent
        | some c =>
            match mkdirSegs c q with
            | .error e => .error e
            | .ok c2 => .ok (.dir (insertChild s c2 ch)) := by
  cases q with
  | nil => exact absurd rfl hq
  | cons q1 q2 =>
      rw [mkdirSegs]
      try rfl

theorem mkdirPrefixes_lift :
    ∀ (q : List JsStr) (pre : List JsStr) (ch : List (JsStr × FsNode))
      (s : JsStr) (c0 : FsNode),
      sortedKeys ch = true → lookupChild s ch = some c0 →
      mkdirPrefixes (.dir ch) (s :: pre) q
        = (.dir (insertChild s (mkdirPrefixes c0 pre q).1 ch),
            (mkdirPrefixes c0 pre q).2) := by
  intro q
  induction q with
  | nil =>
      intro pre ch s c0 hs hl
      rw [mkdirPrefixes, mkdirPrefixes]
      rw [insertChild_eq_self hs hl]
  | cons p1 q' ih =>
      intro pre ch s c0 hs hl
      rw [mkdirPrefixes, mkdirPrefixes]
      have happ : (s :: pre) ++ [p1] = s :: (pre ++ [p1]) := rfl
      rw [happ]
      rw [show mkdirTolerant (.dir ch) (s :: (pre ++ [p1]))
          = match mkdirSegs (.dir ch) (s :: (pre ++ [p1])) with
            | .ok fs2 => .ok fs2
            | .error .eexist => .ok (.dir ch)
            | .error e => .error e from rfl]
      rw [mkdirSegs_cons ch s (pre ++ [p1]) (by simp), hl]
      simp only []
      unfold mkdirTolerant
      cases hm : mkdirSegs c0 (pre ++ [p1]) with
      | ok c2 =>
          simp only []
          rw [ih (pre ++ [p1]) (insertChild s c2 ch) s c2
            (sortedKeys_insertChild _ _ _ hs) (lookupChild_insertChild_self _ _ _)]
          rw [insertChild_insertChild_same]
      | error e =>
          cases e with
          | eexist =>
              simp only []
              exact ih (pre ++ [p1]) ch s c0 hs hl
          | enoent =>
              simp only []
              rw [insertChild_eq_self hs hl]
          | enotdir =>
              simp only []
              rw [insertChild_eq_self hs hl]
          | eisdir =>
              simp only []
              rw [insertChild_eq_self hs hl]

theorem unlinkSegs_cons (ch : List (JsStr × FsNode)) (s : JsStr) (q : List JsStr)
    (hq : q ≠ []) :
    unlinkSegs (.dir ch) (s :: q)
      = match lookupChild s ch with
        | none => .error .enoent
        | some c =>
            match unlinkSegs c q with
            | .error e => .error e
            | .ok c2 => .ok (.dir (insertChild s c2 ch)) := by
  cases q with
  | nil => exact absurd rfl hq
  | cons q1 q2 =>
      rw [unlinkSegs]
      try rfl

theorem entrySteps_eq_placeFile :
    ∀ (ds : List JsStr) (nm : JsStr) (d : List Nat) (fs : FsNode),
      wfFs fs = true → entrySteps fs ds nm d = placeFile fs ds nm d := by
  intro ds
  induction ds with
  | nil =>
      intro nm d fs hwf
      cases fs with
      | file fd r w x =>
          rw [entrySteps, placeFile_file]
          simp only [mkdirPrefixes]
          rw [if_pos trivial]
          rw [show existsPath (.file fd r w x) ([] ++ [nm]) = false from by
            simp [existsPath, getNode]]
          simp only [Bool.false_eq_true, if_false]
          rw [if_pos trivial]
          rw [show createAt (.file fd r w x) [] nm d = .error .enotdir from by
            rw [createAt]]
      | dir ch =>
          obtain ⟨hs, hc⟩ := wfFs_dir.1 hwf
          rw [entrySteps, placeFile]
          simp only [mkdirPrefixes]
          rw [if_pos trivial]
          cases hl : lookupChild nm ch with
          | none =>
              rw [show existsPath (.dir ch) ([] ++ [nm]) = false from by
                simp [existsPath, getNode, hl]]
              simp only [Bool.false_eq_true, if_false]
              rw [if_pos trivial]
              rw [show createAt (.dir ch) [] nm d
                  = .ok (.dir (insertChild nm (.file d true true true) ch)) from by
                rw [createAt, hl]]
          | some c0 =>
              cases c0 with
              | file fd r w x =>
                  rw [show existsPath (.dir ch) ([] ++ [nm]) = true from by
                    simp [existsPath, getNode, hl]]
                  rw [if_pos rfl]
                  rw [show unlinkSegs (.dir ch) ([] ++ [nm])
                      = .ok (.dir (removeChild nm ch)) from by
                    simp [unlinkSegs, hl]]
                  simp only []
                  rw [if_pos trivial]
                  rw [show createAt (.dir (removeChild nm ch)) [] nm d
                      = .ok (.dir (insertChild nm (.file d true true true)
                          (removeChild nm ch))) from by
                    rw [createAt, lookupChild_removeChild_self hs]]
                  simp only []
                  rw [insertChild_removeChild hs hl]
              | dir ch2 =>
                  rw [show existsPath (.dir ch) ([] ++ [nm]) = true from by
                    simp [existsPath, getNode, hl]]
                  rw [if_pos rfl]
                  rw [show unlinkSegs (.dir ch) ([] ++ [nm])
                      = .error .eisdir from by
                    simp [unlinkSegs, hl]]
                  simp
  | cons s rest ih =>
      intro nm d fs hwf
      cases fs with
      | file fd r w x =>
          rw [entrySteps, placeFile_file]
          rw [show mkdirPrefixes (.file fd r w x) [] (s :: rest)
              = (.file fd r w x, false) from by
            rw [mkdirPrefixes]
            rw [show mkdirTolerant (.file fd r w x) ([] ++ [s])
                = .error .enotdir from by
              simp [mkdirTolerant, mkdirSegs]]]
          simp
      | dir ch =>
          obtain ⟨hs, hc⟩ := wfFs_dir.1 hwf
          -- the first mkdir of the chain, then the lifted remainder
          have key : ∀ c0, lookupChild s ch = some c0 → wfFs c0 = true →
              entrySteps (.dir ch) (s :: rest) nm d
                = .dir (insertChild s (entrySteps c0 rest nm d) ch) := by
            intro c0 hl hwc
            rw [entrySteps, entrySteps]
            rw [show mkdirPrefixes (.dir ch) [] (s :: rest)
                = (.dir (insertChild s (mkdirPrefixes c0 [] rest).1 ch),
                    (mkdirPrefixes c0 [] rest).2) from by
              rw [mkdirPrefixes]
              rw [show mkdirTolerant (.dir ch) ([] ++ [s]) = .ok (.dir ch) from by
                simp [mkdirTolerant, mkdirSegs, hl]]
              simp only []
              exact mkdirPrefixes_lift rest [] ch s c0 hs hl]
            cases hm2 : (mkdirPrefixes c0 [] rest).2 with
            | false => simp only [hm2, Bool.false_eq_true, if_false]
            | true =>
                simp only [hm2, if_pos rfl]
                have hex : existsPath
                    (.dir (insertChild s (mkdirPrefixes c0 [] rest).1 ch))
                    ((s :: rest) ++ [nm])
                    = existsPath (mkdirPrefixes c0 [] rest).1 (rest ++ [nm]) := by
                  rw [existsPath, existsPath]
                  rw [show ((s :: rest) ++ [nm]) = s :: (rest ++ [nm]) from rfl]
                  rw [getNode, lookupChild_insertChild_self]
                rw [hex]
                cases hx : existsPath (mkdirPrefixes c0 [] rest).1 (rest ++ [nm]) with
                | false =>
                    simp only [Bool.false_eq_true, if_false]
                    rw [show createAt
                        (.dir (insertChild s (mkdirPrefixes c0 [] rest).1 ch))
                        (s :: rest) nm d
                        = match createAt (mkdirPrefixes c0 [] rest).1 rest nm d with
                          | .error e => .error e
                          | .ok c2 => .ok (.dir (insertChild s c2
                              (insertChild s (mkdirPrefixes c0 [] rest).1 ch))) from by
                      rw [createAt, lookupChild_insertChild_self]
                      try rfl]
                    cases hcr : createAt (mkdirPrefixes c0 [] rest).1 rest nm d with
                    | error e => rfl
                    | ok c3 =>
                        simp [insertChild_insertChild_same]
                | true =>
                    rw [if_pos rfl]
                    rw [show unlinkSegs
                        (.dir (insertChild s (mkdirPrefixes c0 [] rest).1 ch))
                        ((s :: rest) ++ [nm])
                        = match unlinkSegs (mkdirPrefixes c0 [] rest).1 (rest ++ [nm]) with
                          | .error e => .error e
                          | .ok c2 => .ok (.dir (insertChild s c2
                              (insertChild s (mkdirPrefixes c0 [] rest).1 ch))) from by
                      rw [show ((s :: rest) ++ [nm]) = s :: (rest ++ [nm]) from rfl]
                      rw [unlinkSegs_cons _ s _ (by simp),
                        lookupChild_insertChild_self]]
                    cases hu : unlinkSegs (mkdirPrefixes c0 [] rest).1 (rest ++ [nm]) with
                    | error e => simp
                    | ok c2 =>
                        simp only []
                        rw [insertChild_insertChild_same]
                        rw [show createAt (.dir (insertChild s c2 ch)) (s :: rest) nm d
                            = match createAt c2 rest nm d with
                              | .error e => .error e
                              | .ok c3 => .ok (.dir (insertChild s c3
                                  (insertChild s c2 ch))) from by
                          rw [createAt, lookupChild_insertChild_self]
                          try rfl]
                        cases hcr : createAt c2 rest nm d with
                        | error e => simp [hcr]
                        | ok c3 =>
                            simp [insertChild_insertChild_same, hcr]
          cases hl : lookupChild s ch with
          | none =>
              -- the first mkdir creates the directory, and the chain
              -- continues through the fresh empty child
              have hins : sortedKeys (insertChild s (.dir []) ch) = true :=
                sortedKeys_insertChild _ _ _ hs
              have key2 : entrySteps (.dir ch) (s :: rest) nm d
                  = .dir (insertChild s (entrySteps (.dir []) rest nm d) ch) := by
                rw [entrySteps, entrySteps]
                rw [show mkdirPrefixes (.dir ch) [] (s :: rest)
                    = (.dir (insertChild s (mkdirPrefixes (.dir []) [] rest).1 ch),
                        (mkdirPrefixes (.dir []) [] rest).2) from by
                  rw [mkdirPrefixes]
                  rw [show mkdirTolerant (.dir ch) ([] ++ [s])
                      = .ok (.dir (insertChild s (.dir []) ch)) from by
                    simp [mkdirTolerant, mkdirSegs, hl]]
                  simp only []
                  have hlift := mkdirPrefixes_lift rest [] (insertChild s (.dir []) ch) s
                    (.dir []) hins (lookupChild_insertChild_self _ _ _)
                  rw [insertChild_insertChild_same] at hlift
                  exact hlift]
                cases hm2 : (mkdirPrefixes (.dir []) [] rest).2 with
                | false => simp only [hm2, Bool.false_eq_true, if_false]
                | true =>
                    simp only [hm2, if_pos rfl]
                    have hex : existsPath
                        (.dir (insertChild s (mkdirPrefixes (.dir []) [] rest).1 ch))
                        ((s :: rest) ++ [nm])
                        = existsPath (mkdirPrefixes (.dir []) [] rest).1 (rest ++ [nm]) := by
                      rw [existsPath, existsPath]
                      rw [show ((s :: rest) ++ [nm]) = s :: (rest ++ [nm]) from rfl]
                      rw [getNode, lookupChild_insertChild_self]
                    rw [hex]
                    cases hx : existsPath (mkdirPrefixes (.dir []) [] rest).1 (rest ++ [nm]) with
                    | false =>
                        simp only [Bool.false_eq_true, if_false]
                        rw [show createAt
                            (.dir (insertChild s (mkdirPrefixes (.dir []) [] rest).1 ch))
                            (s :: rest) nm d
                            = match createAt (mkdirPrefixes (.dir []) [] rest).1 rest nm d with
                              | .error e => .error e
                              | .ok c2 => .ok (.dir (insertChild s c2
                                  (insertChild s (mkdirPrefixes (.dir []) [] rest).1 ch))) from by
                          rw [createAt, lookupChild_insertChild_self]
                          try rfl]
                        cases hcr : createAt (mkdirPrefixes (.dir []) [] rest).1 rest nm d with
                        | error e => rfl
                        | ok c3 =>
                            simp [insertChild_insertChild_same]
                    | true =>
                        rw [if_pos rfl]
                        rw [show unlinkSegs
                            (.dir (insertChild s (mkdirPrefixes (.dir []) [] rest).1 ch))
                            ((s :: rest) ++ [nm])
                            = match unlinkSegs (mkdirPrefixes (.dir []) [] rest).1 (rest ++ [nm]) with
                              | .error e => .error e
                              | .ok c2 => .ok (.dir (insertChild s c2
                                  (insertChild s (mkdirPrefixes (.dir []) [] rest).1 ch))) from by
                          rw [show ((s :: rest) ++ [nm]) = s :: (rest ++ [nm]) from rfl]
                          rw [unlinkSegs_cons _ s _ (by simp),
                            lookupChild_insertChild_self]]
                        cases hu : unlinkSegs (mkdirPrefixes (.dir []) [] rest).1 (rest ++ [nm]) with
                        | error e => simp
                        | ok c2 =>
                            simp only []
                            rw [insertChild_insertChild_same]
                            rw [show createAt (.dir (insertChild s c2 ch)) (s :: rest) nm d
                                = match createAt c2 rest nm d with
                                  | .error e => .error e
                                  | .ok c3 => .ok (.dir (insertChild s c3
                                      (insertChild s c2 ch))) from by
                              rw [createAt, lookupChild_insertChild_self]
                              try rfl]
                            cases hcr : createAt c2 rest nm d with
                            | error e => simp [hcr]
                            | ok c3 =>
                                simp [insertChild_insertChild_same, hcr]
              rw [key2, placeFile, hl]
              simp only []
              rw [ih nm d (.dir []) (by simp [wfFs, sortedKeys, wfChildren])]
          | some c0 =>
              rw [key c0 hl (wfChildren_lookup hc hl), placeFile, hl]
              simp only []
              rw [ih nm d c0 (wfChildren_lookup hc hl)]

/-! ### Path strings: split and join -/

/-- Proof helper: rejoin split segments with `/`. -/
def joinSlash : List (List Char) → List Char
  | [] => []
  | [s] => s
  | s :: s2 :: ss => s ++ '/' :: joinSlash (s2 :: ss)

theorem splitSlash_ne_nil (p : List Char) : splitSlash p ≠ [] := by
  cases p with
  | nil => simp [splitSlash]
  | cons c rest =>
      rw [splitSlash]
      by_cases h : c = '/'
      · rw [if_pos h]; simp
      · rw [if_neg h]
        cases h2 : splitSlash rest <;> simp

theorem splitSlash_join (p : List Char) : joinSlash (splitSlash p) = p := by
  induction p with
  | nil => rfl
  | cons c rest ih =>
      rw [splitSlash]
      by_cases h : c = '/'
      · rw [if_pos h]
        cases h2 : splitSlash rest with
        | nil => exact absurd h2 (splitSlash_ne_nil rest)
        | cons s ss =>
            rw [joinSlash]
            rw [h2] at ih
            rw [ih, h]
            simp
      · rw [if_neg h]
        cases h2 : splitSlash rest with
        | nil => exact absurd h2 (splitSlash_ne_nil rest)
        | cons s ss =>
            rw [h2] at ih
            cases ss with
            | nil =>
                rw [joinSlash]
                rw [joinSlash] at ih
                rw [ih]
            | cons s2 ss2 =>
                rw [joinSlash]
                rw [joinSlash] at ih
                rw [List.cons_append, ih]

theorem splitSlash_noSlash (p : List Char) :
    ∀ s ∈ splitSlash p, '/' ∉ s := by
  induction p with
  | nil =>
      intro s hs
      simp [splitSlash] at hs
      simp [hs]
  | cons c rest ih =>
      intro s hs
      rw [splitSlash] at hs
      by_cases h : c = '/'
      · rw [if_pos h] at hs
        rcases List.mem_cons.1 hs with h2 | h2
        · simp [h2]
        · exact ih s h2
      · rw [if_neg h] at hs
        cases h2 : splitSlash rest with
        | nil => exact absurd h2 (splitSlash_ne_nil rest)
        | cons s0 ss =>
            rw [h2] at hs
            rcases List.mem_cons.1 hs with h3 | h3
            · subst h3
              intro hmem
              rcases List.mem_cons.1 hmem with h4 | h4
              · exact h h4.symm
              · exact ih s0 (h2 ▸ List.mem_cons_self s0 ss) h4
            · exact ih s (h2 ▸ List.mem_cons_of_mem s0 h3)

theorem splitSlash_single (s : List Char) (h : '/' ∉ s) :
    splitSlash s = [s] := by
  induction s with
  | nil => rfl
  | cons c rest ih =>
      rw [splitSlash]
      rw [if_neg (fun hc => h (show ('/' : Char) ∈ c :: rest by rw [← hc]; exact List.mem_cons_self c rest))]
      rw [ih (fun hm => h (List.mem_cons_of_mem c hm))]

theorem splitSlash_append_slash (s : List Char) (X : List Char) (h : '/' ∉ s) :
    splitSlash (s ++ '/' :: X) = s :: splitSlash X := by
  induction s with
  | nil =>
      rw [List.nil_append, splitSlash, if_pos rfl]
  | cons c rest ih =>
      rw [List.cons_append, splitSlash]
      rw [if_neg (fun hc => h (show ('/' : Char) ∈ c :: rest by rw [← hc]; exact List.mem_cons_self c rest))]
      rw [ih (fun hm => h (List.mem_cons_of_mem c hm))]

theorem join_split (L : List (List Char)) (hne : L ≠ [])
    (h : ∀ s ∈ L, '/' ∉ s) : splitSlash (joinSlash L) = L := by
  induction L with
  | nil => exact absurd rfl hne
  | cons s ss ih =>
      cases ss with
      | nil =>
          rw [joinSlash]
          exact splitSlash_single s (h s (List.mem_cons_self s []))
      | cons s2 ss2 =>
          rw [joinSlash]
          rw [splitSlash_append_slash s _ (h s (List.mem_cons_self s _))]
          rw [ih (by simp) (fun t ht => h t (List.mem_cons_of_mem s ht))]

theorem join_append_last (L : List (List Char)) (x : List Char) (hne : L ≠ []) :
    joinSlash (L ++ [x]) = joinSlash L ++ '/' :: x := by
  induction L with
  | nil => exact absurd rfl hne
  | cons s ss ih =>
      cases ss with
      | nil => rfl
      | cons s2 ss2 =>
          rw [show (s :: s2 :: ss2) ++ [x] = s :: ((s2 :: ss2) ++ [x]) from rfl]
          rw [show joinSlash (s :: ((s2 :: ss2) ++ [x]))
              = s ++ '/' :: joinSlash ((s2 :: ss2) ++ [x]) from rfl]
          rw [ih (by simp)]
          rw [show joinSlash (s :: s2 :: ss2)
              = s ++ '/' :: joinSlash (s2 :: ss2) from rfl]
          simp

theorem lastIndexOfSlash_none (s : List Char) (h : '/' ∉ s) :
    lastIndexOfSlash s = none := by
  induction s with
  | nil => rfl
  | cons c rest ih =>
      rw [lastIndexOfSlash]
      rw [ih (fun hm => h (List.mem_cons_of_mem c hm))]
      rw [if_neg (fun hc => h (show ('/' : Char) ∈ c :: rest by rw [← hc]; exact List.mem_cons_self c rest))]

theorem lastIndexOfSlash_append (a b : List Char) (h : '/' ∉ b) :
    lastIndexOfSlash (a ++ '/' :: b) = some a.length := by
  induction a with
  | nil =>
      rw [List.nil_append, lastIndexOfSlash, lastIndexOfSlash_none b h]
      simp
  | cons c rest ih =>
      rw [List.cons_append, lastIndexOfSlash, ih]
      simp

/-! ### Normalized paths resolve to their segments -/

theorem norm_segs (p : JsStr) (h : isNormalizedPath p = true) :
    splitSlash p = [] :: segsOf p ∧ segsOf p ≠ [] ∧
      ∀ s ∈ segsOf p, s ≠ [] ∧ '/' ∉ s := by
  unfold isNormalizedPath at h
  cases hsp : splitSlash p with
  | nil => exact absurd hsp (splitSlash_ne_nil p)
  | cons s0 segs =>
      rw [hsp] at h
      cases s0 with
      | cons c s0' => simp at h
      | nil =>
          simp only [] at h
          obtain ⟨hne, hall⟩ := Bool.and_eq_true_iff.1 h
          have hallm := List.all_eq_true.1 hall
          have hsegs : segsOf p = segs := by
            unfold segsOf
            rw [hsp, List.filter_cons]
            simp only [List.isEmpty_nil, Bool.not_true, Bool.false_eq_true, if_false]
            exact List.filter_eq_self.2 (fun a ha => by
              have h2 := hallm a ha
              simp only [Bool.and_eq_true_iff] at h2
              exact h2.1.1)
          refine ⟨by rw [hsegs], ?_, ?_⟩
          · rw [hsegs]
            intro hh
            rw [hh] at hne
            simp at hne
          · intro s hs
            rw [hsegs] at hs
            constructor
            · have h2 := hallm s hs
              simp only [Bool.and_eq_true_iff] at h2
              have h3 := h2.1.1
              intro he
              rw [he] at h3
              simp at h3
            · exact splitSlash_noSlash p s
                (by rw [hsp]; exact List.mem_cons_of_mem _ hs)

theorem segsOf_inj {p p' : JsStr} (h : isNormalizedPath p = true)
    (h' : isNormalizedPath p' = true) (he : segsOf p = segsOf p') : p = p' := by
  have h1 := (norm_segs p h).1
  have h2 := (norm_segs p' h').1
  have j1 := splitSlash_join p
  have j2 := splitSlash_join p'
  rw [h1] at j1
  rw [h2] at j2
  rw [← j1, ← j2, he]

theorem norm_restore_decomp (p : JsStr) (h : isNormalizedPath p = true) :
    segsOf p = segsOf (restoreDir p) ++ [restoreName p] := by
  obtain ⟨hsp, hne, hel⟩ := norm_segs p h
  have hjoin : joinSlash ([] :: segsOf p) = p := by
    rw [← hsp]
    exact splitSlash_join p
  rcases List.eq_nil_or_concat (segsOf p) with hcon | ⟨init, lastSeg, hdecomp⟩
  · exact absurd hcon hne
  rw [List.concat_eq_append] at hdecomp
  cases init with
  | nil =>
      rw [hdecomp, List.nil_append] at hjoin
      have hp : p = '/' :: lastSeg := by
        rw [← hjoin]
        rfl
      have hnos : '/' ∉ lastSeg :=
        (hel _ (by rw [hdecomp]; simp)).2
      have hlis : lastIndexOfSlash p = some 0 := by
        rw [hp, lastIndexOfSlash, lastIndexOfSlash_none _ hnos]
        simp
      have hdir : restoreDir p = ['/'] := by
        rw [restoreDir, hlis]
        simp
      have hnm : restoreName p = lastSeg := by
        rw [restoreName, hlis]
        simp only []
        rw [hp]
        rfl
      rw [hdir, hnm, hdecomp]
      rfl
  | cons i0 irest =>
      have hsegs2 : [] :: segsOf p = ([] :: (i0 :: irest)) ++ [lastSeg] := by
        rw [hdecomp]
        rfl
      have hp : p = joinSlash ([] :: i0 :: irest) ++ '/' :: lastSeg := by
        rw [← hjoin, hsegs2]
        exact join_append_last _ _ (by simp)
      have hnos : '/' ∉ lastSeg :=
        (hel _ (by rw [hdecomp]; simp)).2
      have hlis : lastIndexOfSlash p
          = some (joinSlash ([] :: i0 :: irest)).length := by
        rw [hp]
        exact lastIndexOfSlash_append _ _ hnos
      have hAlen : (joinSlash ([] :: i0 :: irest)).length ≠ 0 := by
        rw [show joinSlash ([] :: i0 :: irest)
            = [] ++ '/' :: joinSlash (i0 :: irest) from rfl]
        simp
      have hdir : restoreDir p = joinSlash ([] :: i0 :: irest) := by
        rw [restoreDir, hlis]
        simp only []
        rw [if_neg hAlen, hp, List.take_left]
      have hnm : restoreName p = lastSeg := by
        rw [restoreName, hlis]
        simp only []
        rw [hp]
        rw [show joinSlash ([] :: i0 :: irest) ++ '/' :: lastSeg
            = (joinSlash ([] :: i0 :: irest) ++ ['/']) ++ lastSeg from by simp]
        rw [show (joinSlash ([] :: i0 :: irest)).length + 1
            = (joinSlash ([] :: i0 :: irest) ++ ['/']).length from by simp]
        rw [List.drop_left]
      have hdirsegs : segsOf (restoreDir p) = i0 :: irest := by
        rw [hdir]
        unfold segsOf
        rw [join_split ([] :: i0 :: irest) (by simp)
          (fun s hsm => by
            rcases List.mem_cons.1 hsm with h1 | h1
            · rw [h1]; simp
            · refine (hel s ?_).2
              rw [hdecomp]
              exact List.mem_append_left _ h1)]
        rw [List.filter_cons]
        simp only [List.isEmpty_nil, Bool.not_true, Bool.false_eq_true, if_false]
        exact List.filter_eq_self.2 (fun a ha => by
          have h2 : a ≠ [] := by
            refine (hel a ?_).1
            rw [hdecomp]
            exact List.mem_append_left _ ha
          simp [h2])
      rw [hdirsegs, hnm, hdecomp]


theorem restoreEntry_eq_entrySteps (fs : FsNode) (p : JsStr) (d : List Nat)
    (hA : segsOf p = segsOf (restoreDir p) ++ [restoreName p]) :
    restoreEntry fs p d = entrySteps fs (segsOf (restoreDir p)) (restoreName p) d := by
  unfold restoreEntry entrySteps
  rw [hA]
  simp only []
  by_cases hdir : restoreDir p = ['/']
  · rw [if_pos hdir, hdir]
    rfl
  · rw [if_neg hdir]

theorem restoreEntry_eq_placeFile (fs : FsNode) (p : JsStr) (d : List Nat)
    (hwf : wfFs fs = true) (hnorm : isNormalizedPath p = true) :
    restoreEntry fs p d = placeFile fs (segsOf (restoreDir p)) (restoreName p) d := by
  rw [restoreEntry_eq_entrySteps fs p d (norm_restore_decomp p hnorm)]
  exact entrySteps_eq_placeFile _ _ _ _ hwf

/-- Nonempty prefixes of a segment list, shortest first. -/
def prefixesOf : List JsStr → List (List JsStr)
  | [] => []
  | s :: rest => [s] :: (prefixesOf rest).map (fun q => s :: q)

/-- Absent, or present as a directory. -/
def nodeAbsentOrDir : Option FsNode → Bool
  | none => true
  | some (.dir _) => true
  | _ => false

/-- Absent, or present as a data file. -/
def nodeAbsentOrFile : Option FsNode → Bool
  | none => true
  | some (.file _ _ _ _) => true
  | _ => false

theorem getNode_emptyDir : ∀ q : List JsStr, q ≠ [] → getNode (.dir []) q = none := by
  intro q hq
  cases q with
  | nil => exact absurd rfl hq
  | cons s rest => rw [getNode, lookupChild]

theorem placeFile_success :
    ∀ (ds : List JsStr) (ch : List (JsStr × FsNode)) (nm : JsStr) (d : List Nat),
      (∀ q ∈ prefixesOf ds, nodeAbsentOrDir (getNode (.dir ch) q) = true) →
      nodeAbsentOrFile (getNode (.dir ch) (ds ++ [nm])) = true →
      getNode (placeFile (.dir ch) ds nm d) (ds ++ [nm])
        = some (.file d true true true) := by
  intro ds
  induction ds with
  | nil =>
      intro ch nm d hpre htgt
      rw [List.nil_append] at htgt ⊢
      rw [placeFile]
      cases hl : lookupChild nm ch with
      | none =>
          simp only []
          rw [getNode, lookupChild_insertChild_self]
          rfl
      | some c0 =>
          cases c0 with
          | file fd r w x =>
              simp only []
              rw [getNode, lookupChild_insertChild_self]
              rfl
          | dir ch2 =>
              rw [getNode, hl] at htgt
              simp [nodeAbsentOrFile, getNode] at htgt
  | cons s rest ih =>
      intro ch nm d hpre htgt
      have hs : nodeAbsentOrDir (getNode (.dir ch) [s]) = true :=
        hpre [s] (by rw [prefixesOf]; exact List.mem_cons_self _ _)
      rw [getNode] at hs
      rw [show (s :: rest) ++ [nm] = s :: (rest ++ [nm]) from rfl] at htgt ⊢
      rw [placeFile]
      cases hl : lookupChild s ch with
      | none =>
          simp only []
          rw [getNode, lookupChild_insertChild_self]
          simp only []
          refine ih [] nm d ?_ ?_
          · intro q hq
            have : q ≠ [] := by
              cases rest with
              | nil => simp [prefixesOf] at hq
              | cons r1 r2 =>
                  rw [prefixesOf] at hq
                  rcases List.mem_cons.1 hq with h1 | h1
                  · rw [h1]; simp
                  · rcases List.mem_map.1 h1 with ⟨q0, _, hq0⟩
                    rw [← hq0]; simp
            rw [getNode_emptyDir q this]
            rfl
          · rw [getNode_emptyDir _ (by simp)]
            rfl
      | some c0 =>
          rw [hl] at hs
          cases c0 with
          | file fd r w x => simp [nodeAbsentOrDir, getNode] at hs
          | dir ch2 =>
              simp only []
              rw [getNode, lookupChild_insertChild_self]
              simp only []
              refine ih ch2 nm d ?_ ?_
              · intro q hq
                have h2 := hpre (s :: q) (by
                  rw [prefixesOf]
                  exact List.mem_cons_of_mem _ (List.mem_map.2 ⟨q, hq, rfl⟩))
                rw [getNode, hl] at h2
                exact h2
              · rw [getNode, hl] at htgt
                exact htgt

theorem placeFile_dir_target :
    ∀ (ds : List JsStr) (fs : FsNode) (nm : JsStr) (d : List Nat)
      (ch2 : List (JsStr × FsNode)),
      wfFs fs = true → getNode fs (ds ++ [nm]) = some (.dir ch2) →
      placeFile fs ds nm d = fs := by
  intro ds
  induction ds with
  | nil =>
      intro fs nm d ch2 hwf htgt
      rw [List.nil_append] at htgt
      cases fs with
      | file fd r w x => rw [placeFile_file]
      | dir ch =>
          rw [getNode] at htgt
          rw [placeFile]
          cases hl : lookupChild nm ch with
          | none => rw [hl] at htgt; simp at htgt
          | some c0 =>
              rw [hl] at htgt
              cases c0 with
              | file fd r w x => simp [getNode] at htgt
              | dir chx => simp only []
  | cons s rest ih =>
      intro fs nm d ch2 hwf htgt
      cases fs with
      | file fd r w x => rw [placeFile_file]
      | dir ch =>
          obtain ⟨hs, hc⟩ := wfFs_dir.1 hwf
          rw [show (s :: rest) ++ [nm] = s :: (rest ++ [nm]) from rfl, getNode] at htgt
          rw [placeFile]
          cases hl : lookupChild s ch with
          | none => rw [hl] at htgt; simp at htgt
          | some c =>
              rw [hl] at htgt
              simp only [] at htgt
              simp only []
              rw [ih c nm d ch2 (wfChildren_lookup hc hl) htgt]
              rw [insertChild_eq_self hs hl]

/-! ### Claim C5: restore idempotence -/

theorem wfFs_restoreEntry (fs : FsNode) (p : JsStr) (d : List Nat)
    (hwf : wfFs fs = true) (hnorm : isNormalizedPath p = true) :
    wfFs (restoreEntry fs p d) = true := by
  rw [restoreEntry_eq_placeFile fs p d hwf hnorm]
  exact wfFs_placeFile _ _ _ fs hwf

theorem wfFs_restoreSaveFiles :
    ∀ (S : Snapshot) (fs : FsNode), wfFs fs = true →
      (∀ e ∈ S, isNormalizedPath e.1 = true) →
      wfFs (restoreSaveFiles fs S) = true := by
  intro S
  induction S with
  | nil => intro fs hwf _; exact hwf
  | cons e T ih =>
      obtain ⟨p, d⟩ := e
      intro fs hwf hnorm
      rw [restoreSaveFiles]
      exact ih _ (wfFs_restoreEntry fs p d hwf (hnorm (p, d) (List.mem_cons_self _ _)))
        (fun e2 he2 => hnorm e2 (List.mem_cons_of_mem _ he2))

theorem stable_through_pass :
    ∀ (T : Snapshot) (fs : FsNode) (p : JsStr) (d : List Nat),
      wfFs fs = true → isNormalizedPath p = true →
      (∀ e ∈ T, isNormalizedPath e.1 = true) →
      (∀ e ∈ T, e.1 ≠ p) →
      placeFile fs (segsOf (restoreDir p)) (restoreName p) d = fs →
      placeFile (restoreSaveFiles fs T) (segsOf (restoreDir p)) (restoreName p) d
        = restoreSaveFiles fs T := by
  intro T
  induction T with
  | nil => intro fs p d _ _ _ _ hst; exact hst
  | cons e T' ih =>
      obtain ⟨p', d'⟩ := e
      intro fs p d hwf hnp hnorm hne hst
      rw [restoreSaveFiles]
      have hnp' : isNormalizedPath p' = true :=
        hnorm (p', d') (List.mem_cons_self _ _)
      refine ih (restoreEntry fs p' d') p d
        (wfFs_restoreEntry fs p' d' hwf hnp')
        hnp
        (fun e2 he2 => hnorm e2 (List.mem_cons_of_mem _ he2))
        (fun e2 he2 => hne e2 (List.mem_cons_of_mem _ he2))
        ?_
      rw [restoreEntry_eq_placeFile fs p' d' hwf hnp']
      refine placeFile_stable_preserved _ _ _ _ _ _ fs hwf ?_ hst
      intro hcon
      rw [← norm_restore_decomp p hnp, ← norm_restore_decomp p' hnp'] at hcon
      exact hne (p', d') (List.mem_cons_self _ _) (segsOf_inj hnp' hnp hcon.symm)

theorem pass_stable :
    ∀ (S : Snapshot) (fs : FsNode), wfFs fs = true →
      (∀ e ∈ S, isNormalizedPath e.1 = true) →
      (S.map Prod.fst).Nodup →
      ∀ e ∈ S, placeFile (restoreSaveFiles fs S)
          (segsOf (restoreDir e.1)) (restoreName e.1) e.2
        = restoreSaveFiles fs S := by
  intro S
  induction S with
  | nil => intro fs _ _ _ e he; simp at he
  | cons e0 T ih =>
      obtain ⟨p, d⟩ := e0
      intro fs hwf hnorm hnd e he
      have hnp : isNormalizedPath p = true := hnorm (p, d) (List.mem_cons_self _ _)
      rw [restoreSaveFiles]
      rw [List.map_cons, List.nodup_cons] at hnd
      rcases List.mem_cons.1 he with he0 | he0
      · subst he0
        refine stable_through_pass T (restoreEntry fs p d) p d
          (wfFs_restoreEntry fs p d hwf hnp)
          hnp
          (fun e2 he2 => hnorm e2 (List.mem_cons_of_mem _ he2))
          (fun e2 he2 hcon => hnd.1 (hcon ▸ List.mem_map.2 ⟨e2, he2, rfl⟩))
          ?_
        rw [restoreEntry_eq_placeFile fs p d hwf hnp]
        exact placeFile_idem _ _ _ fs
      · exact ih (restoreEntry fs p d)
          (wfFs_restoreEntry fs p d hwf hnp)
          (fun e2 he2 => hnorm e2 (List.mem_cons_of_mem _ he2))
          hnd.2 e he0

theorem pass_of_stable :
    ∀ (S : Snapshot) (fs : FsNode), wfFs fs = true →
      (∀ e ∈ S, isNormalizedPath e.1 = true) →
      (∀ e ∈ S, placeFile fs (segsOf (restoreDir e.1)) (restoreName e.1) e.2 = fs) →
      restoreSaveFiles fs S = fs := by
  intro S
  induction S with
  | nil => intro fs _ _ _; rfl
  | cons e0 T ih =>
      obtain ⟨p, d⟩ := e0
      intro fs hwf hnorm hst
      rw [restoreSaveFiles]
      have hnp : isNormalizedPath p = true := hnorm (p, d) (List.mem_cons_self _ _)
      have hent : restoreEntry fs p d = fs := by
        rw [restoreEntry_eq_placeFile fs p d hwf hnp]
        exact hst (p, d) (List.mem_cons_self _ _)
      rw [hent]
      exact ih fs hwf (fun e2 he2 => hnorm e2 (List.mem_cons_of_mem _ he2))
        (fun e2 he2 => hst e2 (List.mem_cons_of_mem _ he2))

/-- **C5**: restoring a Snapshot (unique keys, absolute normalized
paths) twice yields the same filesystem state as restoring it once:
each entry's delete-then-recreate leaves a state every entry of the
snapshot is already settled in, so the second pass changes nothing. -/
theorem c5_restore_idempotent (fs : FsNode) (S : Snapshot)
    (hwf : wfFs fs = true)
    (hnd : (S.map Prod.fst).Nodup)
    (hnorm : ∀ e ∈ S, isNormalizedPath e.1 = true) :
    restoreSaveFiles (restoreSaveFiles fs S) S = restoreSaveFiles fs S :=
  pass_of_stable S _ (wfFs_restoreSaveFiles S fs hwf hnorm) hnorm
    (pass_stable S fs hwf hnorm hnd)

/-- Witness for C5 at the snapshot `{"/a": [9], "/b/c": [1, 2]}` on an
empty root. -/
theorem c5_restore_idempotent_witness :
    restoreSaveFiles
        (restoreSaveFiles (.dir []) [("/a".data, [9]), ("/b/c".data, [1, 2])])
        [("/a".data, [9]), ("/b/c".data, [1, 2])]
      = restoreSaveFiles (.dir []) [("/a".data, [9]), ("/b/c".data, [1, 2])] :=
  c5_restore_idempotent (.dir []) [("/a".data, [9]), ("/b/c".data, [1, 2])]
    (by simp [wfFs, sortedKeys, wfChildren]) (by decide) (by decide)

/-! ### Claim C6: restore mechanics -/

theorem mkdirSegs_eexist :
    ∀ (segs : List JsStr) (fs : FsNode) (n : FsNode),
      getNode fs segs = some n → mkdirSegs fs segs = .error .eexist := by
  intro segs
  induction segs with
  | nil => intro fs n _; cases fs <;> rfl
  | cons s q ih =>
      intro fs n h
      cases fs with
      | file fd r w x =>
          rw [getNode] at h
          exact absurd h (by simp)
      | dir ch =>
          rw [getNode] at h
          cases hl : lookupChild s ch with
          | none => rw [hl] at h; exact absurd h (by simp)
          | some c =>
              rw [hl] at h
              simp only [] at h
              cases q with
              | nil =>
                  rw [mkdirSegs, hl]
              | cons q1 q2 =>
                  rw [mkdirSegs_cons ch s (q1 :: q2) (by simp), hl]
                  simp only []
                  rw [ih c n h]

/-- **C6**: the restore mechanics, entry by entry.
(1) The loop always continues with the remaining entries, whatever one
entry did.  (2) `mkdir` of an existing node is errno 20 (`EEXIST`) and
the tolerated call leaves the state unchanged — "already exists" is
not an error.  (3) When every parent-chain prefix is absent or a
directory and the target is absent or a file, the entry ends with a
data file at the target carrying exactly the entry's bytes and full
read/write/execute permission flags — an existing file was removed
first.  (4) A directory at the target aborts only that entry, leaving
the filesystem unchanged. -/
theorem c6_restore_mechanics :
    (∀ fs (p : JsStr) (d : List Nat) rest,
      restoreSaveFiles fs ((p, d) :: rest)
        = restoreSaveFiles (restoreEntry fs p d) rest) ∧
    (∀ fs (segs : List JsStr) n, getNode fs segs = some n →
      mkdirSegs fs segs = .error .eexist ∧ mkdirTolerant fs segs = .ok fs) ∧
    (∀ ch (p : JsStr) (d : List Nat), wfFs (.dir ch) = true →
      isNormalizedPath p = true →
      (∀ q ∈ prefixesOf (segsOf (restoreDir p)),
        nodeAbsentOrDir (getNode (.dir ch) q) = true) →
      nodeAbsentOrFile (getNode (.dir ch) (segsOf p)) = true →
      getNode (restoreEntry (.dir ch) p d) (segsOf p)
        = some (.file d true true true)) ∧
    (∀ fs (p : JsStr) (d : List Nat) ch2, wfFs fs = true →
      isNormalizedPath p = true →
      getNode fs (segsOf p) = some (.dir ch2) →
      restoreEntry fs p d = fs) := by
  refine ⟨fun fs p d rest => rfl, ?_, ?_, ?_⟩
  · intro fs segs n h
    refine ⟨mkdirSegs_eexist segs fs n h, ?_⟩
    rw [mkdirTolerant, mkdirSegs_eexist segs fs n h]
  · intro ch p d hwf hnorm hpre htgt
    rw [restoreEntry_eq_placeFile _ p d hwf hnorm]
    have hA := norm_restore_decomp p hnorm
    rw [hA] at htgt ⊢
    exact placeFile_success _ ch _ d hpre htgt
  · intro fs p d ch2 hwf hnorm htgt
    rw [restoreEntry_eq_placeFile fs p d hwf hnorm]
    have hA := norm_restore_decomp p hnorm
    rw [hA] at htgt
    exact placeFile_dir_target _ fs _ d ch2 hwf htgt

/-- Witness for C6: the loop law on a one-entry snapshot, errno-20
tolerance at an existing file, a successful entry at `/a/b` on an
empty root, and a directory target aborting an entry unchanged. -/
theorem c6_restore_mechanics_witness :
    restoreSaveFiles (.dir []) [("/a".data, [1])]
        = restoreSaveFiles (restoreEntry (.dir []) "/a".data [1]) [] ∧
    (mkdirSegs (.dir [("a".data, .file [] true true true)]) ["a".data]
          = .error .eexist ∧
      mkdirTolerant (.dir [("a".data, .file [] true true true)]) ["a".data]
          = .ok (.dir [("a".data, .file [] true true true)])) ∧
    getNode (restoreEntry (.dir []) "/a/b".data [5]) (segsOf "/a/b".data)
        = some (.file [5] true true true) ∧
    restoreEntry (.dir [("a".data, .dir [])]) "/a".data [7]
        = .dir [("a".data, .dir [])] := by
  refine ⟨c6_restore_mechanics.1 (.dir []) "/a".data [1] [], ?_, ?_, ?_⟩
  · exact c6_restore_mechanics.2.1 (.dir [("a".data, .file [] true true true)])
      ["a".data] (.file [] true true true) rfl
  · exact c6_restore_mechanics.2.2.1 [] "/a/b".data [5]
      (by simp [wfFs, sortedKeys, wfChildren]) (by decide) (by decide) (by decide)
  · exact c6_restore_mechanics.2.2.2 (.dir [("a".data, .dir [])]) "/a".data [7] []
      (by simp [wfFs, sortedKeys, wfChildren]) (by decide) rfl

end SaveManager
